import Mathlib

/-!
Verification model of the retrieval / indexing / context-assembly pipeline of the
zotero-paper-agent plugin, shallowly embedded in Lean.

Modelling conventions:
* JavaScript strings are `List Char` (one element per UTF-16 code unit; all texts
  considered here lie in the basic multilingual plane, where `Char.toNat` is the
  code unit returned by `charCodeAt`).
* JavaScript numbers are `Int` where the source only ever holds integers
  (page numbers, counters; `Math.floor` is then the identity) and `ℚ` where real
  arithmetic is involved (scores, vectors).  The transcendental library functions
  `Math.log` and `Math.sqrt` are abstract parameters of the affected definitions.
* JavaScript `Map` / plain-object dictionaries are association lists
  `List (String × α)`; `set` overwrites in place, lookup takes the first match.
* Asynchronous external calls (HTTP requests to the LLM / embedding backends, PDF
  parsing) are oracle parameters of type `Except String α`: `.error` models a
  thrown exception.
* The mutable module state (store cache, index cache, pending disk writes) is an
  explicit state record threaded through the stateful operations; persisted
  stores are logged in call order.
-/

namespace PaperAgent

/-! ## Constants (source: module-level `const` declarations) -/

def CHUNK_SIZE : Nat := 1600
def CHUNK_OVERLAP : Nat := 260
def MAX_CONTEXT_CHARS : Nat := 12000
def MAX_STORED_MESSAGES : Nat := 60
def MEMORY_REFRESH_MIN_NEW_MESSAGES : Nat := 6
def MEMORY_SOURCE_WINDOW : Nat := 18
def EMBEDDING_BATCH_SIZE : Nat := 12

/-! ## Whitespace, trimming, slicing -/

/-- The whitespace characters relevant to this code base (JS `\s` restricted to
the characters the pipeline can produce: space, tab, LF, CR, FF, VT). -/
def isJsWhitespace (c : Char) : Bool :=
  c = ' ' || c = '\t' || c = '\n' || c = '\r' || c = '\x0b' || c = '\x0c'

/-- JS `String.prototype.trim`. -/
def trimChars (l : List Char) : List Char :=
  ((l.dropWhile isJsWhitespace).reverse.dropWhile isJsWhitespace).reverse

/-- JS `text.slice(a, b)` for `0 ≤ a ≤ b`. -/
def sliceChars (l : List Char) (a b : Nat) : List Char :=
  (l.drop a).take (b - a)

/-! ## normalizeText (source: `normalizeText`) -/

/-- `.replace(/\r/g, "\n")` -/
def crToLf (l : List Char) : List Char :=
  l.map (fun c => if c = '\r' then '\n' else c)

def isTabLike (c : Char) : Bool :=
  c = '\t' || c = '\x0c' || c = '\x0b'

/-- Replace every maximal run of characters satisfying `p` by `repl`
(used for `.replace(/[\t\f\v]+/g, " ")` and `.replace(/[ ]{2,}/g, " ")`,
whose effect on whole strings coincides with run collapapsing). -/
def collapseRuns (p : Char → Bool) (repl : Char) : List Char → List Char :=
  go false
where
  go : Bool → List Char → List Char
  | _, [] => []
  | inRun, c :: rest =>
    if p c then (if inRun then [] else [repl]) ++ go true rest
    else c :: go false rest

/-- `.replace(/\u0000/g, "")` -/
def removeNull (l : List Char) : List Char :=
  l.filter (fun c => c ≠ '\x00')

/-- `.replace(/\n{3,}/g, "\n\n")`: cap every run of newlines at two. -/
def capNewlines : Nat → List Char → List Char
  | _, [] => []
  | seen, c :: rest =>
    if c = '\n' then (if seen < 2 then ['\n'] else []) ++ capNewlines (seen + 1) rest
    else c :: capNewlines 0 rest

/-- Source: `normalizeText` (CR→LF, tab-like runs→space, drop NUL,
collapse space runs, cap blank lines, trim). -/
def normalizeText (input : List Char) : List Char :=
  trimChars (capNewlines 0 (collapseRuns (fun c => c = ' ') ' '
    (removeNull (collapseRuns isTabLike ' ' (crToLf input)))))

/-! ## Chunking (source: `chunkText`) -/

structure TextChunk where
  id : String
  text : List Char
  start : Nat
  /-- the source's `end` field (`end` is reserved in Lean) -/
  stop : Nat
deriving Repr, DecidableEq, Inhabited

/-- `Math.min(CHUNK_OVERLAP, Math.max(0, CHUNK_SIZE - 1))` -/
def chunkOverlapEff : Nat := min CHUNK_OVERLAP (max 0 (CHUNK_SIZE - 1))

/-- The `while` loop of `chunkText`: emit the window at `start`
(when its trimmed text is non-empty), then continue from
`max(start + 1, end - overlap)` unless the window reached the end of the text.
`index` counts previously emitted chunks.  The loop advances `start` by at
least one per iteration, so `fuel = text.length` always suffices; the fuel
parameter only makes the recursion structural. -/
def chunkTextGo (text : List Char) : Nat → Nat → Nat → List TextChunk
  | 0, _, _ => []
  | fuel + 1, start, index =>
    if start < text.length then
      let e := min text.length (start + CHUNK_SIZE)
      let ct := trimChars (sliceChars text start e)
      if ct = [] then
        if text.length ≤ e then []
        else chunkTextGo text fuel (max (start + 1) (e - chunkOverlapEff)) index
      else
        { id := "chunk-" ++ toString (index + 1), text := ct, start := start, stop := e } ::
          (if text.length ≤ e then []
           else chunkTextGo text fuel (max (start + 1) (e - chunkOverlapEff)) (index + 1))
    else []

/-- Source: `chunkText`. -/
def chunkText (text : List Char) : List TextChunk :=
  if text = [] then [] else chunkTextGo text text.length 0 0

/-- The sequence of `[start, end)` windows visited by the `chunkText` loop,
including windows whose trimmed text is empty (skipped for emission). -/
def chunkWindowsGo (text : List Char) : Nat → Nat → List (Nat × Nat)
  | 0, _ => []
  | fuel + 1, start =>
    if start < text.length then
      let e := min text.length (start + CHUNK_SIZE)
      (start, e) ::
        (if text.length ≤ e then []
         else chunkWindowsGo text fuel (max (start + 1) (e - chunkOverlapEff)))
    else []

def chunkWindows (text : List Char) : List (Nat × Nat) :=
  chunkWindowsGo text text.length 0

/-! ## cosineSimilarity (source: `cosineSimilarity`) -/

/-- The accumulator loop of `cosineSimilarity`: running `(dot, normA, normB)`
over the first `min` components (the `zip` truncates to the shorter vector,
exactly like the loop bound `size = Math.min(vecA.length, vecB.length)`). -/
def cosineAccum (vecA vecB : List ℚ) : ℚ × ℚ × ℚ :=
  (vecA.zip vecB).foldl
    (fun acc ab => (acc.1 + ab.1 * ab.2, acc.2.1 + ab.1 * ab.1, acc.2.2 + ab.2 * ab.2))
    (0, 0, 0)

/-- Source: `cosineSimilarity`.  `sqrt` abstracts `Math.sqrt`. -/
def cosineSimilarity (sqrt : ℚ → ℚ) (vecA vecB : List ℚ) : ℚ :=
  let size := min vecA.length vecB.length
  if size ≤ 0 then 0
  else
    let acc := cosineAccum vecA vecB
    if acc.2.1 ≤ 0 ∨ acc.2.2 ≤ 0 then 0
    else acc.1 / (sqrt acc.2.1 * sqrt acc.2.2)

/-! ## Generic facts about trimming -/

theorem mem_dropWhile_of_neg {p : Char → Bool} {c : Char} :
    ∀ {l : List Char}, c ∈ l → p c = false → c ∈ l.dropWhile p := by
  intro l
  induction l with
  | nil => intro h; cases h
  | cons a l ih =>
    intro hmem hpc
    by_cases hpa : p a = true
    · rw [List.dropWhile_cons_of_pos hpa]
      rcases List.mem_cons.1 hmem with rfl | hl
      · rw [hpa] at hpc; cases hpc
      · exact ih hl hpc
    · rw [List.dropWhile_cons_of_neg hpa]
      exact hmem

theorem trimChars_ne_nil_of_mem {c : Char} {l : List Char}
    (hmem : c ∈ l) (hc : isJsWhitespace c = false) : trimChars l ≠ [] := by
  unfold trimChars
  intro hnil
  have h1 : c ∈ l.dropWhile isJsWhitespace := mem_dropWhile_of_neg hmem hc
  have h2 : c ∈ (l.dropWhile isJsWhitespace).reverse := List.mem_reverse.2 h1
  have h3 : c ∈ (l.dropWhile isJsWhitespace).reverse.dropWhile isJsWhitespace :=
    mem_dropWhile_of_neg h2 hc
  rw [List.reverse_eq_nil_iff.1 hnil] at h3
  cases h3

theorem head?_dropWhile_neg {p : Char → Bool} {c : Char} :
    ∀ {l : List Char}, (l.dropWhile p).head? = some c → p c = false := by
  intro l
  induction l with
  | nil => intro h; cases h
  | cons a l ih =>
    intro h
    by_cases hpa : p a = true
    · rw [List.dropWhile_cons_of_pos hpa] at h
      exact ih h
    · rw [List.dropWhile_cons_of_neg hpa] at h
      simp only [List.head?_cons, Option.some.injEq] at h
      subst h
      exact Bool.eq_false_iff.2 hpa

theorem trimChars_getLast?_not_ws {l : List Char} {c : Char}
    (h : (trimChars l).getLast? = some c) : isJsWhitespace c = false := by
  unfold trimChars at h
  rw [List.getLast?_reverse] at h
  exact head?_dropWhile_neg h

theorem normalizeText_getLast?_not_ws {input : List Char} {c : Char}
    (h : (normalizeText input).getLast? = some c) : isJsWhitespace c = false :=
  trimChars_getLast?_not_ws h

/-! ## Properties of the chunking loop -/

theorem chunkOverlapEff_eq : chunkOverlapEff = 260 := by decide

/-- Every emitted chunk lies at or after the loop's current `start`, its `end`
offset is `min(text.length, start + CHUNK_SIZE)`, and its stored text is the
trimmed window, which is non-empty. -/
theorem chunkTextGo_mem_shape (text : List Char) :
    ∀ fuel start index, ∀ c ∈ chunkTextGo text fuel start index,
      start ≤ c.start ∧ c.stop = min text.length (c.start + CHUNK_SIZE) ∧
      c.text = trimChars (sliceChars text c.start c.stop) ∧ c.text ≠ [] := by
  intro fuel
  induction fuel with
  | zero => intro start index c hc; cases hc
  | succ fuel ih =>
    intro start index c hc
    simp only [chunkTextGo] at hc
    by_cases hs : start < text.length
    · simp only [if_pos hs] at hc
      by_cases hct : trimChars (sliceChars text start (min text.length (start + CHUNK_SIZE))) = []
      · simp only [if_pos hct] at hc
        by_cases hend : text.length ≤ min text.length (start + CHUNK_SIZE)
        · simp only [if_pos hend] at hc; cases hc
        · simp only [if_neg hend] at hc
          have := ih _ index c hc
          exact ⟨le_trans (le_trans (Nat.le_succ start) (le_max_left _ _)) this.1,
            this.2.1, this.2.2⟩
      · simp only [if_neg hct] at hc
        rcases List.mem_cons.1 hc with rfl | htail
        · exact ⟨le_refl _, rfl, rfl, hct⟩
        · by_cases hend : text.length ≤ min text.length (start + CHUNK_SIZE)
          · simp only [if_pos hend] at htail; cases htail
          · simp only [if_neg hend] at htail
            have := ih _ (index + 1) c htail
            exact ⟨le_trans (le_trans (Nat.le_succ start) (le_max_left _ _)) this.1,
              this.2.1, this.2.2⟩
    · simp only [if_neg hs] at hc; cases hc

/-- Chunk IDs are `chunk-<n>`, `n` counting emitted chunks in order. -/
theorem chunkTextGo_id (text : List Char) :
    ∀ fuel start index i c, (chunkTextGo text fuel start index).get? i = some c →
      c.id = "chunk-" ++ toString (index + i + 1) := by
  intro fuel
  induction fuel with
  | zero => intro start index i c h; simp [chunkTextGo] at h
  | succ fuel ih =>
    intro start index i c h
    simp only [chunkTextGo] at h
    by_cases hs : start < text.length
    · simp only [if_pos hs] at h
      by_cases hct : trimChars (sliceChars text start (min text.length (start + CHUNK_SIZE))) = []
      · simp only [if_pos hct] at h
        by_cases hend : text.length ≤ min text.length (start + CHUNK_SIZE)
        · simp only [if_pos hend] at h; simp at h
        · simp only [if_neg hend] at h
          exact ih _ index i c h
      · simp only [if_neg hct] at h
        match i with
        | 0 =>
          simp only [List.get?_cons_zero, Option.some.injEq] at h
          rw [← h]
        | j + 1 =>
          simp only [List.get?_cons_succ] at h
          by_cases hend : text.length ≤ min text.length (start + CHUNK_SIZE)
          · simp only [if_pos hend] at h; simp at h
          · simp only [if_neg hend] at h
            have := ih _ (index + 1) j c h
            rw [this]
            congr 2
            omega
    · simp only [if_neg hs] at h; simp at h

/-- Offsets of emitted chunks advance strictly monotonically. -/
theorem chunkTextGo_chain (text : List Char) :
    ∀ fuel start index,
      List.Chain' (fun a b => a.start < b.start ∧ a.stop < b.stop)
        (chunkTextGo text fuel start index) := by
  intro fuel
  induction fuel with
  | zero => intro start index; simp [chunkTextGo]
  | succ fuel ih =>
    intro start index
    have hK : CHUNK_SIZE = 1600 := rfl
    have hOv : chunkOverlapEff = 260 := rfl
    simp only [chunkTextGo]
    by_cases hs : start < text.length
    · simp only [if_pos hs]
      by_cases hct : trimChars (sliceChars text start (min text.length (start + CHUNK_SIZE))) = []
      · simp only [if_pos hct]
        by_cases hend : text.length ≤ min text.length (start + CHUNK_SIZE)
        · rw [if_pos hend]; simp
        · simp only [if_neg hend]
          exact ih _ index
      · simp only [if_neg hct]
        by_cases hend : text.length ≤ min text.length (start + CHUNK_SIZE)
        · rw [if_pos hend]; simp
        · simp only [if_neg hend]
          rw [List.chain'_cons']
          refine ⟨?_, ih _ (index + 1)⟩
          intro b hb
          have hbmem := List.mem_of_mem_head? hb
          have hshape := chunkTextGo_mem_shape text fuel _ _ b hbmem
          refine ⟨?_, ?_⟩
          · simp only
            omega
          · simp only
            omega
    · simp [if_neg hs]

/-- Every emitted chunk's offsets appear among the loop's visited windows. -/
theorem chunkTextGo_mem_windows (text : List Char) :
    ∀ fuel start index, ∀ c ∈ chunkTextGo text fuel start index,
      (c.start, c.stop) ∈ chunkWindowsGo text fuel start := by
  intro fuel
  induction fuel with
  | zero => intro start index c hc; cases hc
  | succ fuel ih =>
    intro start index c hc
    simp only [chunkTextGo] at hc
    simp only [chunkWindowsGo]
    by_cases hs : start < text.length
    · simp only [if_pos hs] at hc ⊢
      by_cases hct : trimChars (sliceChars text start (min text.length (start + CHUNK_SIZE))) = []
      · simp only [if_pos hct] at hc
        by_cases hend : text.length ≤ min text.length (start + CHUNK_SIZE)
        · simp only [if_pos hend] at hc; cases hc
        · simp only [if_neg hend] at hc
          simp only [if_neg hend]
          exact List.mem_cons_of_mem _ (ih _ index c hc)
      · simp only [if_neg hct] at hc
        rcases List.mem_cons.1 hc with rfl | htail
        · exact List.mem_cons_self _ _
        · by_cases hend : text.length ≤ min text.length (start + CHUNK_SIZE)
          · simp only [if_pos hend] at htail; cases htail
          · simp only [if_neg hend] at htail
            simp only [if_neg hend]
            exact List.mem_cons_of_mem _ (ih _ (index + 1) c htail)
    · simp only [if_neg hs] at hc; cases hc

/-- Every visited window `[start, end)` has `end = min(text.length, start + CHUNK_SIZE)`. -/
theorem chunkWindowsGo_mem_shape (text : List Char) :
    ∀ fuel start, ∀ w ∈ chunkWindowsGo text fuel start,
      start ≤ w.1 ∧ w.2 = min text.length (w.1 + CHUNK_SIZE) := by
  intro fuel
  induction fuel with
  | zero => intro start w hw; cases hw
  | succ fuel ih =>
    intro start w hw
    simp only [chunkWindowsGo] at hw
    by_cases hs : start < text.length
    · simp only [if_pos hs] at hw
      rcases List.mem_cons.1 hw with rfl | htail
      · exact ⟨le_refl _, rfl⟩
      · by_cases hend : text.length ≤ min text.length (start + CHUNK_SIZE)
        · simp only [if_pos hend] at htail; cases htail
        · simp only [if_neg hend] at htail
          have := ih _ w htail
          exact ⟨by omega, this.2⟩
    · simp only [if_neg hs] at hw; cases hw

/-- Consecutive visited windows overlap by exactly `CHUNK_OVERLAP` characters:
the next window starts `CHUNK_OVERLAP` before the previous window's end. -/
theorem chunkWindowsGo_chain (text : List Char) :
    ∀ fuel start, text.length ≤ fuel + start →
      List.Chain' (fun w w' => w'.1 + CHUNK_OVERLAP = w.2)
        (chunkWindowsGo text fuel start) := by
  intro fuel
  induction fuel with
  | zero => intro start hf; simp [chunkWindowsGo]
  | succ fuel ih =>
    intro start hf
    have hK : CHUNK_SIZE = 1600 := rfl
    have hOv : chunkOverlapEff = 260 := rfl
    have hOv2 : CHUNK_OVERLAP = 260 := rfl
    simp only [chunkWindowsGo]
    by_cases hs : start < text.length
    · simp only [if_pos hs]
      by_cases hend : text.length ≤ min text.length (start + CHUNK_SIZE)
      · rw [if_pos hend]; simp
      · simp only [if_neg hend]
        rw [List.chain'_cons']
        constructor
        · intro w hw
          match fuel, hf with
          | fuel + 1, hf =>
            simp only [chunkWindowsGo] at hw
            have hs' : max (start + 1) (min text.length (start + CHUNK_SIZE) - chunkOverlapEff) <
                text.length := by omega
            simp only [if_pos hs'] at hw
            simp only [List.head?_cons, Option.mem_def, Option.some.injEq] at hw
            subst hw
            simp only
            omega
        · exact ih _ (by omega)
    · simp [if_neg hs]

/-- When the loop's current start is inside the text and the text's final
character is not whitespace, the loop emits at least one more chunk and the
last emitted chunk's `end` equals the text length. -/
theorem chunkTextGo_ne_nil_last (text : List Char)
    (hlast : ∀ c, text.getLast? = some c → isJsWhitespace c = false) :
    ∀ fuel start index, text.length ≤ fuel + start → start < text.length →
      chunkTextGo text fuel start index ≠ [] ∧
      ∀ c, (chunkTextGo text fuel start index).getLast? = some c →
        c.stop = text.length := by
  intro fuel
  induction fuel with
  | zero => intro start index hf hs; omega
  | succ fuel ih =>
    intro start index hf hs
    have hK : CHUNK_SIZE = 1600 := rfl
    have hOv : chunkOverlapEff = 260 := rfl
    simp only [chunkTextGo]
    by_cases hend : text.length ≤ min text.length (start + CHUNK_SIZE)
    · -- final window: reaches the end of the text
      have he : min text.length (start + CHUNK_SIZE) = text.length := by omega
      have hct : trimChars (sliceChars text start (min text.length (start + CHUNK_SIZE))) ≠ [] := by
        rw [he]
        have hslice : sliceChars text start text.length = text.drop start := by
          unfold sliceChars
          exact List.take_of_length_le (by simp [List.length_drop])
        have hdrop : (text.drop start).getLast? = text.getLast? := by
          rw [List.getLast?_drop, if_neg (by omega)]
        have hdne : text.drop start ≠ [] := by
          intro hnil
          have := congrArg List.length hnil
          simp only [List.length_drop, List.length_nil] at this
          omega
        rw [hslice]
        refine trimChars_ne_nil_of_mem (List.getLast_mem hdne) ?_
        apply hlast
        rw [← hdrop]
        exact List.getLast?_eq_getLast_of_ne_nil hdne
      simp only [if_pos hs, if_neg hct, if_pos hend]
      refine ⟨by simp, ?_⟩
      intro c hc
      simp only [List.getLast?_singleton, Option.some.injEq] at hc
      rw [← hc]
      show min text.length (start + CHUNK_SIZE) = text.length
      omega
    · -- the loop continues past this window
      have hs' : max (start + 1) (min text.length (start + CHUNK_SIZE) - chunkOverlapEff) <
          text.length := by omega
      have hf' : text.length ≤ fuel +
          max (start + 1) (min text.length (start + CHUNK_SIZE) - chunkOverlapEff) := by omega
      simp only [if_pos hs]
      by_cases hct : trimChars (sliceChars text start (min text.length (start + CHUNK_SIZE))) = []
      · simp only [if_pos hct, if_neg hend]
        exact ih _ index hf' hs'
      · simp only [if_neg hct, if_neg hend]
        obtain ⟨hne, hlastc⟩ := ih _ (index + 1) hf' hs'
        cases hrest : chunkTextGo text fuel
            (max (start + 1) (min text.length (start + CHUNK_SIZE) - chunkOverlapEff))
            (index + 1) with
        | nil => exact absurd hrest hne
        | cons x xs =>
          refine ⟨by simp, ?_⟩
          intro c hc
          rw [List.getLast?_cons_cons] at hc
          apply hlastc
          rw [hrest]
          exact hc

/-- **C1.** For every non-empty normalized input text, `chunkText` returns a
non-empty list of chunks in which (i) chunk IDs are `chunk-<n>` numbered
1, 2, ... in emission order, (ii) every chunk's trimmed text is non-empty
(the stored text is the trimmed window), (iii) the offsets advance strictly
monotonically, every emitted chunk's `[start, end)` is one of the loop's
windows of size `min(length - start, CHUNK_SIZE)`, and consecutive windows
overlap by exactly the configured `CHUNK_OVERLAP = 260`, which is strictly
smaller than `CHUNK_SIZE = 1600`, and (iv) the final emitted chunk's `end`
equals the text's length; for the empty input text `chunkText` returns
the empty list. -/
theorem chunkText_spec (input t : List Char)
    (ht : t = normalizeText input) (hne : t ≠ []) :
    chunkText t ≠ [] ∧
    (∀ i c, (chunkText t).get? i = some c → c.id = "chunk-" ++ toString (i + 1)) ∧
    (∀ c ∈ chunkText t, c.text ≠ [] ∧ c.text = trimChars (sliceChars t c.start c.stop)) ∧
    List.Chain' (fun a b => a.start < b.start ∧ a.stop < b.stop) (chunkText t) ∧
    (∀ c ∈ chunkText t, (c.start, c.stop) ∈ chunkWindows t) ∧
    (∀ w ∈ chunkWindows t, w.2 = min t.length (w.1 + CHUNK_SIZE)) ∧
    List.Chain' (fun w w' => w'.1 + CHUNK_OVERLAP = w.2) (chunkWindows t) ∧
    CHUNK_OVERLAP < CHUNK_SIZE ∧
    (∀ c, (chunkText t).getLast? = some c → c.stop = t.length) ∧
    chunkText [] = [] := by
  have hlast : ∀ c, t.getLast? = some c → isJsWhitespace c = false := by
    intro c hc
    subst ht
    exact normalizeText_getLast?_not_ws hc
  have hpos : 0 < t.length := List.length_pos.2 hne
  have hCT : chunkText t = chunkTextGo t t.length 0 0 := by
    rw [chunkText, if_neg hne]
  have hW : chunkWindows t = chunkWindowsGo t t.length 0 := rfl
  obtain ⟨hne', hlaststop⟩ :=
    chunkTextGo_ne_nil_last t hlast t.length 0 0 (by omega) hpos
  refine ⟨hCT ▸ hne', ?_, ?_, ?_, ?_, ?_, ?_, by decide, ?_, by decide⟩
  · intro i c hc
    rw [hCT] at hc
    have := chunkTextGo_id t t.length 0 0 i c hc
    simpa using this
  · intro c hc
    rw [hCT] at hc
    have := chunkTextGo_mem_shape t t.length 0 0 c hc
    exact ⟨this.2.2.2, this.2.1 ▸ this.2.2.1⟩
  · rw [hCT]
    exact chunkTextGo_chain t t.length 0 0
  · intro c hc
    rw [hCT] at hc
    rw [hW]
    exact chunkTextGo_mem_windows t t.length 0 0 c hc
  · intro w hw
    rw [hW] at hw
    exact (chunkWindowsGo_mem_shape t t.length 0 w hw).2
  · rw [hW]
    exact chunkWindowsGo_chain t t.length 0 (by omega)
  · intro c hc
    rw [hCT] at hc
    exact hlaststop c hc

theorem chunkText_spec_witness :
    normalizeText "hi there".toList ≠ [] ∧
    chunkText (normalizeText "hi there".toList) ≠ [] :=
  ⟨by decide, (chunkText_spec "hi there".toList _ rfl (by decide)).1⟩

/-- The three running sums of `cosineSimilarity`'s loop, in closed form. -/
theorem cosineFold_eq (l : List (ℚ × ℚ)) :
    ∀ a b c : ℚ,
      l.foldl (fun acc ab =>
          (acc.1 + ab.1 * ab.2, acc.2.1 + ab.1 * ab.1, acc.2.2 + ab.2 * ab.2)) (a, b, c) =
        (a + (l.map (fun p => p.1 * p.2)).sum,
         b + (l.map (fun p => p.1 * p.1)).sum,
         c + (l.map (fun p => p.2 * p.2)).sum) := by
  induction l with
  | nil => intro a b c; simp
  | cons p l ih =>
    intro a b c
    simp only [List.foldl_cons, List.map_cons, List.sum_cons, ih]
    refine Prod.ext ?_ (Prod.ext ?_ ?_) <;> simp <;> ring

theorem cosineAccum_eq (vecA vecB : List ℚ) :
    cosineAccum vecA vecB =
      (((vecA.zip vecB).map (fun p => p.1 * p.2)).sum,
       ((vecA.zip vecB).map (fun p => p.1 * p.1)).sum,
       ((vecA.zip vecB).map (fun p => p.2 * p.2)).sum) := by
  unfold cosineAccum
  rw [cosineFold_eq]
  simp

/-- **C10.** `cosineSimilarity` is total and division-guarded: it computes the
dot product over the first `min(lengthA, lengthB)` components (the component
pairs are exactly `vecA.zip vecB`), returns exactly 0 whenever either vector
is empty or either truncated vector has zero squared norm, and only divides by
the product of the square roots of the two (then positive) squared norms. -/
theorem cosineSimilarity_spec (sqrt : ℚ → ℚ) (vecA vecB : List ℚ) :
    ((vecA = [] ∨ vecB = []) → cosineSimilarity sqrt vecA vecB = 0) ∧
    ((((vecA.zip vecB).map (fun p => p.1 * p.1)).sum = 0 ∨
      ((vecA.zip vecB).map (fun p => p.2 * p.2)).sum = 0) →
      cosineSimilarity sqrt vecA vecB = 0) ∧
    (vecA ≠ [] → vecB ≠ [] →
      ((vecA.zip vecB).map (fun p => p.1 * p.1)).sum ≠ 0 →
      ((vecA.zip vecB).map (fun p => p.2 * p.2)).sum ≠ 0 →
      cosineSimilarity sqrt vecA vecB =
        ((vecA.zip vecB).map (fun p => p.1 * p.2)).sum /
          (sqrt (((vecA.zip vecB).map (fun p => p.1 * p.1)).sum) *
           sqrt (((vecA.zip vecB).map (fun p => p.2 * p.2)).sum))) ∧
    (vecA.zip vecB).length = min vecA.length vecB.length := by
  have hsum2 : ∀ l : List ℚ, (0:ℚ) ≤ (l.map (fun x => x * x)).sum := by
    intro l
    apply List.sum_nonneg
    intro x hx
    obtain ⟨y, _, rfl⟩ := List.mem_map.1 hx
    exact mul_self_nonneg y
  have hA : (0:ℚ) ≤ ((vecA.zip vecB).map (fun p => p.1 * p.1)).sum := by
    apply List.sum_nonneg
    intro x hx
    obtain ⟨y, _, rfl⟩ := List.mem_map.1 hx
    exact mul_self_nonneg y.1
  have hB : (0:ℚ) ≤ ((vecA.zip vecB).map (fun p => p.2 * p.2)).sum := by
    apply List.sum_nonneg
    intro x hx
    obtain ⟨y, _, rfl⟩ := List.mem_map.1 hx
    exact mul_self_nonneg y.2
  refine ⟨?_, ?_, ?_, List.length_zip vecA vecB⟩
  · rintro (rfl | rfl) <;>
      simp [cosineSimilarity]
  · intro hz
    unfold cosineSimilarity
    rcases Nat.eq_zero_or_pos (min vecA.length vecB.length) with hsz | hsz
    · simp [hsz]
    · rw [if_neg (by omega)]
      rw [if_pos]
      rw [cosineAccum_eq]
      rcases hz with hz | hz
      · exact Or.inl (by rw [hz])
      · exact Or.inr (by rw [hz])
  · intro hA' hB' hnA hnB
    unfold cosineSimilarity
    have hlen : 0 < min vecA.length vecB.length := by
      have h1 : 0 < vecA.length := List.length_pos.2 hA'
      have h2 : 0 < vecB.length := List.length_pos.2 hB'
      omega
    rw [if_neg (by omega)]
    rw [cosineAccum_eq]
    rw [if_neg]
    push_neg
    constructor
    · exact lt_of_le_of_ne hA (Ne.symm hnA)
    · exact lt_of_le_of_ne hB (Ne.symm hnB)

theorem cosineSimilarity_spec_witness :
    ([(1:ℚ), 2] ≠ []) ∧
    cosineSimilarity id [(1:ℚ), 2] [2, 3] =
      ((([(1:ℚ), 2]).zip [(2:ℚ), 3]).map (fun p => p.1 * p.2)).sum /
        (id (((([(1:ℚ), 2]).zip [(2:ℚ), 3]).map (fun p => p.1 * p.1)).sum) *
         id (((([(1:ℚ), 2]).zip [(2:ℚ), 3]).map (fun p => p.2 * p.2)).sum)) :=
  ⟨by simp, (cosineSimilarity_spec id [(1:ℚ), 2] [2, 3]).2.2.1
    (by simp) (by simp) (by norm_num) (by norm_num)⟩

/-! ## Outline flattening and section page ranges
(source: `flattenOutlineWithPath`, `resolveSectionPageRange`) -/

inductive PdfOutlineNode where
  | node (title : String) (pageNumber : Option Int) (url : Option String)
      (children : List PdfOutlineNode) (depth : Nat)
deriving Repr

def PdfOutlineNode.title : PdfOutlineNode → String
  | .node t _ _ _ _ => t

def PdfOutlineNode.pageNumber : PdfOutlineNode → Option Int
  | .node _ p _ _ _ => p

def PdfOutlineNode.url : PdfOutlineNode → Option String
  | .node _ _ u _ _ => u

def PdfOutlineNode.children : PdfOutlineNode → List PdfOutlineNode
  | .node _ _ _ c _ => c

def PdfOutlineNode.depth : PdfOutlineNode → Nat
  | .node _ _ _ _ d => d

structure FlattenedOutlineNode where
  title : String
  depth : Nat
  pageNumber : Option Int
  url : Option String
  path : String
deriving Repr, DecidableEq

/-- The `walk` closure of `flattenOutlineWithPath`: depth-first traversal
building dotted 1-based index paths. -/
def flattenWalk : List PdfOutlineNode → String → Nat → List FlattenedOutlineNode
  | [], _, _ => []
  | .node title pageNumber url children depth :: rest, parentPath, idx =>
    let path := if parentPath = "" then toString (idx + 1)
                else parentPath ++ "." ++ toString (idx + 1)
    { title := title, depth := depth, pageNumber := pageNumber, url := url, path := path } ::
      (flattenWalk children path 0 ++ flattenWalk rest parentPath (idx + 1))

/-- Source: `flattenOutlineWithPath`. -/
def flattenOutlineWithPath (nodes : List PdfOutlineNode) : List FlattenedOutlineNode :=
  flattenWalk nodes "" 0

/-- The predicate of the `for` loop in `resolveSectionPageRange`: the first
later node at depth ≤ the current node's depth with a resolved positive page
number bounds the current section. -/
def isNextBoundary (current : FlattenedOutlineNode) (next : FlattenedOutlineNode) : Bool :=
  next.depth ≤ current.depth &&
    (match next.pageNumber with
     | some q => 0 < q
     | none => false)

/-- JS `Math.max` on two integers. -/
def jsMax (a b : Int) : Int := if a ≤ b then b else a

/-- Source: `resolveSectionPageRange`.  Returns `none` when the node has no
resolved positive page number (both range fields `undefined`). -/
def resolveSectionPageRange (flattened : List FlattenedOutlineNode)
    (currentIndex : Nat) (numPages : Int) : Option (Int × Int) :=
  match flattened.get? currentIndex with
  | none => none
  | some current =>
    match current.pageNumber with
    | none => none
    | some p =>
      if p ≤ 0 then none
      else
        let safeNumPages := if 0 < numPages then numPages else p
        let startPageNumber := jsMax 1 p
        let endPageNumber := jsMax startPageNumber safeNumPages
        let endPageNumber :=
          match (flattened.drop (currentIndex + 1)).find? (isNextBoundary current) with
          | some next => (next.pageNumber.getD 0) - 1
          | none => endPageNumber
        let endPageNumber := if endPageNumber < startPageNumber then startPageNumber
                             else endPageNumber
        some (startPageNumber, endPageNumber)

/-- The three depth-0 bookmark nodes of the claim's example, at pages 1, 5, 12. -/
def exampleOutline : List FlattenedOutlineNode :=
  [{ title := "A", depth := 0, pageNumber := some 1, url := none, path := "1" },
   { title := "B", depth := 0, pageNumber := some 5, url := none, path := "2" },
   { title := "C", depth := 0, pageNumber := some 12, url := none, path := "3" }]

/-- **C2.** For every flattened outline sequence and node with a resolved
positive page number `p`, `resolveSectionPageRange` returns the range
`[max 1 p, q - 1]` (clamped so that `end ≥ start`), where `q` is the page
number of the first later node at depth ≤ the current node's depth with a
resolved positive page number; when no such node exists the range ends at the
document's last page (clamped likewise).  A node without a resolved page
number gets an undefined range.  In particular, depth-0 bookmarks at pages
[1, 5, 12] with 20 document pages get the ranges [1,4], [5,11], [12,20]. -/
theorem resolveSectionPageRange_spec (flattened : List FlattenedOutlineNode)
    (currentIndex : Nat) (numPages : Int) (current : FlattenedOutlineNode)
    (hcur : flattened.get? currentIndex = some current) :
    (∀ p, current.pageNumber = some p → 0 < p →
      ∃ s e, resolveSectionPageRange flattened currentIndex numPages = some (s, e) ∧
        s = jsMax 1 p ∧ s ≤ e ∧
        (match (flattened.drop (currentIndex + 1)).find? (isNextBoundary current) with
         | some next => e = jsMax s ((next.pageNumber.getD 0) - 1)
         | none => e = jsMax s (if 0 < numPages then numPages else p))) ∧
    (current.pageNumber = none →
      resolveSectionPageRange flattened currentIndex numPages = none) ∧
    (resolveSectionPageRange exampleOutline 0 20 = some (1, 4) ∧
     resolveSectionPageRange exampleOutline 1 20 = some (5, 11) ∧
     resolveSectionPageRange exampleOutline 2 20 = some (12, 20)) := by
  refine ⟨?_, ?_, by decide, by decide, by decide⟩
  · intro p hp hppos
    unfold resolveSectionPageRange
    rw [hcur]
    dsimp only
    rw [hp]
    dsimp only
    rw [if_neg (by omega)]
    cases hfind : (flattened.drop (currentIndex + 1)).find? (isNextBoundary current) with
    | none =>
      dsimp only
      refine ⟨jsMax 1 p,
        if jsMax (jsMax 1 p) (if 0 < numPages then numPages else p) < jsMax 1 p
        then jsMax 1 p
        else jsMax (jsMax 1 p) (if 0 < numPages then numPages else p),
        rfl, rfl, ?_, ?_⟩
      · simp only [jsMax]; split_ifs <;> omega
      · simp only [jsMax]; split_ifs <;> omega
    | some next =>
      dsimp only
      generalize next.pageNumber.getD 0 = q
      refine ⟨jsMax 1 p,
        if q - 1 < jsMax 1 p then jsMax 1 p else q - 1,
        rfl, rfl, ?_, ?_⟩
      · simp only [jsMax]; split_ifs <;> omega
      · simp only [jsMax]; split_ifs <;> omega
  · intro hp
    unfold resolveSectionPageRange
    rw [hcur]
    dsimp only
    rw [hp]

theorem resolveSectionPageRange_spec_witness :
    (exampleOutline.get? 0 = some
      { title := "A", depth := 0, pageNumber := some 1, url := none, path := "1" }) ∧
    resolveSectionPageRange exampleOutline 0 20 = some (1, 4) :=
  ⟨by decide,
   ((resolveSectionPageRange_spec exampleOutline 0 20
      { title := "A", depth := 0, pageNumber := some 1, url := none, path := "1" }
      (by decide)).2.2).1⟩

/-! ## Evidence enforcement (source: `enforceEvidence`, `clipText`) -/

/-- The regex `/\[C\d+\]/` anchored at the head of the list. -/
def citationAtHead : List Char → Bool
  | '[' :: 'C' :: rest =>
    (match rest.dropWhile Char.isDigit with
     | ']' :: _ => decide (rest.takeWhile Char.isDigit ≠ [])
     | _ => false)
  | _ => false

/-- JS `/\[C\d+\]/.test(s)`: some suffix starts with `[C`, one or more
digits, `]`. -/
def hasCitationMarker (l : List Char) : Bool :=
  l.tails.any citationAtHead

/-- Source: `clipText`. -/
def clipText (text : List Char) (maxChars : Nat) : List Char :=
  if text.length ≤ maxChars then text
  else trimChars (text.take maxChars) ++ "...".toList

def evidenceDisclaimer : List Char :=
  "근거 인용이 누락되어 답변 신뢰도를 보장하기 어렵습니다.".toList

def evidenceHeader : List Char := "검토용 컨텍스트:".toList

/-- The labelled snippet list `[C1] …`, `[C2] …`, … (source: the `snippets`
mapping in `enforceEvidence`); `i` is the running 0-based index. -/
def labelSnippets (chunks : List TextChunk) (i : Nat) : List (List Char) :=
  match chunks with
  | [] => []
  | c :: rest =>
    (("[C" ++ toString (i + 1) ++ "] ").toList ++ clipText c.text 220) ::
      labelSnippets rest (i + 1)

def evidenceSnippets (chunks : List TextChunk) : List (List Char) :=
  labelSnippets (chunks.take 3) 0

/-- JS `Array.prototype.join("\n")`. -/
def joinLines (ls : List (List Char)) : List Char :=
  List.intercalate ['\n'] ls

/-- Source: `enforceEvidence`.  `requireEvidence` abstracts the preference
read `isEvidenceRequired()`. -/
def enforceEvidence (requireEvidence : Bool) (answer : List Char)
    (chunks : List TextChunk) : List Char :=
  let clean := trimChars answer
  if requireEvidence = false ∨ chunks = [] ∨ hasCitationMarker clean then clean
  else
    joinLines [evidenceDisclaimer, clean, [], evidenceHeader,
      joinLines (evidenceSnippets chunks)]

def c6chunk : TextChunk := { id := "chunk-1", text := "alpha".toList, start := 0, stop := 5 }

/-- **C6 (counterexample).** The claim says that when the answer already
contains a `[C<digits>]` marker the answer text is returned unmodified; in
fact the code returns the *trimmed* answer, so an answer with surrounding
whitespace is modified. -/
theorem enforceEvidence_counterexample :
    enforceEvidence true " see [C1] ".toList [c6chunk] ≠ " see [C1] ".toList := by decide

theorem labelSnippets_length (chunks : List TextChunk) :
    ∀ i, (labelSnippets chunks i).length = chunks.length := by
  induction chunks with
  | nil => intro i; rfl
  | cons c rest ih => intro i; simp [labelSnippets, ih]

theorem labelSnippets_get? (chunks : List TextChunk) :
    ∀ i j c, chunks.get? j = some c →
      (labelSnippets chunks i).get? j =
        some (("[C" ++ toString (i + j + 1) ++ "] ").toList ++ clipText c.text 220) := by
  induction chunks with
  | nil => intro i j c h; simp at h
  | cons x rest ih =>
    intro i j c h
    match j with
    | 0 =>
      simp only [List.get?_cons_zero, Option.some.injEq] at h
      subst h
      simp [labelSnippets]
    | j + 1 =>
      simp only [List.get?_cons_succ] at h
      simp only [labelSnippets, List.get?_cons_succ]
      have harith : i + (j + 1) + 1 = i + 1 + j + 1 := by omega
      rw [harith]
      exact ih (i + 1) j c h

/-- **C6 (amended).** `enforceEvidence` operates on the *trimmed* answer:
when evidence is not required, or there are no chunks, or the trimmed answer
already contains a `[C<digits>]` marker, the trimmed answer is returned
otherwise unmodified; in the enforcing case the result is the disclaimer,
then the full trimmed answer (never dropped), then a blank line, the review
header, and the labelled snippets `[C1] …`, `[C2] …`, `[C3] …` built from at
most the first three chunks. -/
theorem enforceEvidence_spec (requireEvidence : Bool) (answer : List Char)
    (chunks : List TextChunk) :
    ((requireEvidence = false ∨ chunks = [] ∨
        hasCitationMarker (trimChars answer) = true) →
      enforceEvidence requireEvidence answer chunks = trimChars answer) ∧
    (requireEvidence = true → chunks ≠ [] →
      hasCitationMarker (trimChars answer) = false →
      enforceEvidence requireEvidence answer chunks =
        evidenceDisclaimer ++ '\n' :: trimChars answer ++
          '\n' :: '\n' :: evidenceHeader ++
          '\n' :: joinLines (evidenceSnippets chunks) ∧
      (evidenceSnippets chunks).length = min 3 chunks.length ∧
      (∀ j c, (chunks.take 3).get? j = some c →
        (evidenceSnippets chunks).get? j =
          some (("[C" ++ toString (j + 1) ++ "] ").toList ++ clipText c.text 220))) := by
  constructor
  · intro h
    unfold enforceEvidence
    rw [if_pos]
    rcases h with h | h | h
    · exact Or.inl h
    · exact Or.inr (Or.inl h)
    · exact Or.inr (Or.inr h)
  · intro hreq hchunks hmark
    refine ⟨?_, ?_, ?_⟩
    · unfold enforceEvidence
      rw [if_neg]
      · simp only [joinLines, List.intercalate, List.intersperse]
        simp [List.append_assoc]
      · subst hreq
        simp [hchunks, hmark]
    · unfold evidenceSnippets
      rw [labelSnippets_length]
      rw [List.length_take]
    · intro j c h
      have h0 := labelSnippets_get? (chunks.take 3) 0 j c h
      unfold evidenceSnippets
      simpa using h0

theorem enforceEvidence_spec_witness :
    (true = true ∧ [c6chunk] ≠ [] ∧ hasCitationMarker (trimChars " hi ".toList) = false) ∧
    enforceEvidence true " hi ".toList [c6chunk] =
      evidenceDisclaimer ++ '\n' :: trimChars " hi ".toList ++
        '\n' :: '\n' :: evidenceHeader ++
        '\n' :: joinLines (evidenceSnippets [c6chunk]) :=
  ⟨⟨rfl, by decide, by decide⟩,
   ((enforceEvidence_spec true " hi ".toList [c6chunk]).2 rfl (by decide) (by decide)).1⟩

/-! ## Persistent store data model (source: the `PaperStore` family of
interfaces and `hashText`) -/

structure ChatSectionLink where
  title : String
  path : String
  pageNumber : Option Int
  attachmentItemID : Option Int
deriving Repr, DecidableEq

structure ChatMessage where
  role : String
  content : List Char
  createdAt : String
  sectionLinks : Option (List ChatSectionLink)
deriving Repr, DecidableEq

structure ConversationMemory where
  summary : List Char
  updatedAt : String
  turnCount : Nat
deriving Repr, DecidableEq

structure PaperIndex where
  hash : String
  title : String
  source : String
  chunks : List TextChunk
  updatedAt : String
deriving Repr, DecidableEq, Inhabited

structure PaperEmbeddings where
  endpoint : String
  model : String
  chunkHashes : List (String × String)
  vectors : List (String × List ℚ)
  updatedAt : String
deriving Repr, DecidableEq

structure PaperStore where
  version : Nat
  papers : List (String × PaperIndex)
  conversations : List (String × List ChatMessage)
  memories : List (String × ConversationMemory)
  embeddings : List (String × PaperEmbeddings)
deriving Repr, DecidableEq

def emptyPaperStore : PaperStore := ⟨2, [], [], [], []⟩

/-- First-match lookup in a JS-object / `Map`-style association list. -/
def alGet {α : Type} (m : List (String × α)) (k : String) : Option α :=
  (m.find? (fun p => p.1 = k)).map Prod.snd

/-- JS object / `Map` assignment: overwrite in place, else append
(preserving insertion order like JS). -/
def alSet {α : Type} (m : List (String × α)) (k : String) (v : α) :
    List (String × α) :=
  if m.any (fun p => p.1 = k) then m.map (fun p => if p.1 = k then (k, v) else p)
  else m ++ [(k, v)]

/-- JS `delete obj[k]`. -/
def alDelete {α : Type} (m : List (String × α)) (k : String) : List (String × α) :=
  m.filter (fun p => p.1 ≠ k)

theorem alGet_alSet_self {α : Type} (m : List (String × α)) (k : String) (v : α) :
    alGet (alSet m k v) k = some v := by
  unfold alGet alSet
  by_cases hany : m.any (fun p => p.1 = k) = true
  · rw [if_pos hany]
    induction m with
    | nil => simp at hany
    | cons p rest ih =>
      by_cases hp : p.1 = k
      · simp only [List.map_cons, if_pos hp]
        rw [List.find?_cons_of_pos _ (by simp)]
        rfl
      · simp only [List.any_cons] at hany
        rcases Bool.or_eq_true_iff.1 hany with h | h
        · exact absurd (by simpa using h) hp
        · simp only [List.map_cons, if_neg hp]
          rw [List.find?_cons_of_neg _ (by simp [hp])]
          exact ih h
  · rw [if_neg hany]
    induction m with
    | nil =>
      rw [List.nil_append, List.find?_cons_of_pos _ (by simp)]
      rfl
    | cons p rest ih =>
      simp only [List.any_cons] at hany
      have hp : ¬p.1 = k := fun h => hany (by simp [h])
      have hrest : ¬rest.any (fun p => p.1 = k) = true := fun h => hany (by simp [h])
      simp only [List.cons_append]
      rw [List.find?_cons_of_neg _ (by simp [hp])]
      exact ih hrest

/-! ## hashText (source: `hashText`) -/

/-- One iteration of the FNV-style hash loop.  The JS bitwise operators
(`^`, `<<`) coerce through `ToInt32` and the final `>>> 0` through
`ToUint32`; on the unsigned representatives the whole computation is
arithmetic mod `2^32` (the intermediate float64 additions stay below `2^53`,
hence are exact). -/
def hashStep (hash code : Nat) : Nat :=
  let h := (hash % 2 ^ 32) ^^^ code
  (h + (h * 2 % 2 ^ 32 + h * 16 % 2 ^ 32 + h * 128 % 2 ^ 32 + h * 256 % 2 ^ 32 +
    h * 2 ^ 24 % 2 ^ 32)) % 2 ^ 32

/-- Source: `hashText` (returns `String(hash >>> 0)`). -/
def hashText (value : List Char) : String :=
  toString (value.foldl (fun h c => hashStep h c.toNat) 2166136261)

/-! ## Stateful pipeline state

The module-level mutable state: the in-memory store cache (`storeCache`,
assumed already loaded — `loadStore` then returns it), the paper index cache
(`indexCache`), and the ordered log of serialized store writes issued through
`persistStore`. -/

structure AgentState where
  store : PaperStore
  indexCache : List (String × PaperIndex)
  diskWrites : List PaperStore
deriving Repr, DecidableEq

/-- `persistStore`: replace the in-memory cache and append the serialized
snapshot to the ordered write log. -/
def persistStoreS (store : PaperStore) (st : AgentState) : AgentState :=
  { st with store := store, diskWrites := st.diskWrites ++ [store] }

/-! ## ensurePaperIndex (source: `ensurePaperIndex`, `buildPaperIndex`) -/

structure ResolvedPaper where
  paperID : String
  title : String
deriving Repr, DecidableEq

/-- The result of `loadPaperText` (external: PDF cache file → abstract →
title), passed in as an oracle value. -/
structure LoadedPaperText where
  text : List Char
  source : String
deriving Repr, DecidableEq

/-- Source: `buildPaperIndex`.  Throws when chunking yields no chunks. -/
def buildPaperIndex (resolved : ResolvedPaper) (source : String)
    (normalizedText : List Char) (now : String) : Except String PaperIndex :=
  let chunks := chunkText normalizedText
  if chunks = [] then
    .error "No readable paper content found. Index the PDF in Zotero first."
  else
    .ok { hash := hashText normalizedText, title := resolved.title, source := source,
          chunks := chunks, updatedAt := now }

/-- The rebuild branch of `ensurePaperIndex`: build the index, store it
(overwriting the prior entry for this paper), cache it, persist. -/
def buildAndPersistIndex (resolved : ResolvedPaper) (paperText : LoadedPaperText)
    (now : String) (st : AgentState) : Except String (PaperIndex × AgentState) :=
  match buildPaperIndex resolved paperText.source (normalizeText paperText.text) now with
  | .error e => .error e
  | .ok index =>
    let store' := { st.store with
      papers := alSet st.store.papers resolved.paperID index }
    .ok (index, { store := store',
                  indexCache := alSet st.indexCache resolved.paperID index,
                  diskWrites := st.diskWrites ++ [store'] })

/-- The part of `ensurePaperIndex` after the in-memory cache check: compare
against the stored index and rebuild + persist on mismatch. -/
def ensurePaperIndexStore (resolved : ResolvedPaper) (paperText : LoadedPaperText)
    (now : String) (st : AgentState) : Except String (PaperIndex × AgentState) :=
  match alGet st.store.papers resolved.paperID with
  | some ex =>
    if ex.hash = hashText (normalizeText paperText.text) ∧
        ex.source = paperText.source ∧ ex.title = resolved.title then
      .ok (ex, { st with indexCache := alSet st.indexCache resolved.paperID ex })
    else buildAndPersistIndex resolved paperText now st
  | none => buildAndPersistIndex resolved paperText now st

/-- Source: `ensurePaperIndex`.  The in-memory cache short-circuits only for
indices built from the PDF cache. -/
def ensurePaperIndex (resolved : ResolvedPaper) (paperText : LoadedPaperText)
    (now : String) (st : AgentState) : Except String (PaperIndex × AgentState) :=
  match alGet st.indexCache resolved.paperID with
  | some cached =>
    if cached.source = "pdf-cache" then .ok (cached, st)
    else ensurePaperIndexStore resolved paperText now st
  | none => ensurePaperIndexStore resolved paperText now st

/-- Every successful rebuild-path call stores and caches the fresh index and
appends exactly one write. -/
theorem buildAndPersistIndex_ok_inv (resolved : ResolvedPaper)
    (pt : LoadedPaperText) (now : String) (st : AgentState)
    (idx : PaperIndex) (st' : AgentState)
    (h : buildAndPersistIndex resolved pt now st = .ok (idx, st')) :
    idx.hash = hashText (normalizeText pt.text) ∧ idx.source = pt.source ∧
    idx.title = resolved.title ∧
    alGet st'.store.papers resolved.paperID = some idx ∧
    alGet st'.indexCache resolved.paperID = some idx ∧
    st'.diskWrites = st.diskWrites ++ [st'.store] := by
  unfold buildAndPersistIndex buildPaperIndex at h
  by_cases hch : chunkText (normalizeText pt.text) = []
  · rw [if_pos hch] at h
    cases h
  · rw [if_neg hch] at h
    dsimp only at h
    simp only [Except.ok.injEq, Prod.mk.injEq] at h
    obtain ⟨hidx, hst⟩ := h
    subst hidx
    subst hst
    refine ⟨rfl, rfl, rfl, ?_, ?_, rfl⟩
    · exact alGet_alSet_self _ _ _
    · exact alGet_alSet_self _ _ _

/-- Every successful `ensurePaperIndexStore` call caches the returned index,
which matches the stored entry for the current content. -/
theorem ensurePaperIndexStore_ok_inv (resolved : ResolvedPaper)
    (pt : LoadedPaperText) (now : String) (st : AgentState)
    (idx : PaperIndex) (st' : AgentState)
    (h : ensurePaperIndexStore resolved pt now st = .ok (idx, st')) :
    alGet st'.indexCache resolved.paperID = some idx ∧
    alGet st'.store.papers resolved.paperID = some idx ∧
    idx.hash = hashText (normalizeText pt.text) ∧
    idx.source = pt.source ∧ idx.title = resolved.title := by
  unfold ensurePaperIndexStore at h
  cases hex : alGet st.store.papers resolved.paperID with
  | some ex =>
    rw [hex] at h
    dsimp only at h
    by_cases hmatch : ex.hash = hashText (normalizeText pt.text) ∧
        ex.source = pt.source ∧ ex.title = resolved.title
    · rw [if_pos hmatch] at h
      simp only [Except.ok.injEq, Prod.mk.injEq] at h
      obtain ⟨hidx, hst⟩ := h
      subst hidx
      subst hst
      exact ⟨alGet_alSet_self _ _ _, hex, hmatch.1, hmatch.2.1, hmatch.2.2⟩
    · rw [if_neg hmatch] at h
      have := buildAndPersistIndex_ok_inv resolved pt now st idx st' h
      exact ⟨this.2.2.2.2.1, this.2.2.2.1, this.1, this.2.1, this.2.2.1⟩
  | none =>
    rw [hex] at h
    dsimp only at h
    have := buildAndPersistIndex_ok_inv resolved pt now st idx st' h
    exact ⟨this.2.2.2.2.1, this.2.2.2.1, this.1, this.2.1, this.2.2.1⟩

/-- Every successful `ensurePaperIndex` call caches the returned index, which
either has source "pdf-cache" (cache fast path) or matches the stored entry
for the current content. -/
theorem ensurePaperIndex_ok_inv (resolved : ResolvedPaper)
    (pt : LoadedPaperText) (now : String) (st : AgentState)
    (idx : PaperIndex) (st' : AgentState)
    (h : ensurePaperIndex resolved pt now st = .ok (idx, st')) :
    alGet st'.indexCache resolved.paperID = some idx ∧
    (idx.source = "pdf-cache" ∨
      (alGet st'.store.papers resolved.paperID = some idx ∧
       idx.hash = hashText (normalizeText pt.text) ∧
       idx.source = pt.source ∧ idx.title = resolved.title)) := by
  unfold ensurePaperIndex at h
  cases hc : alGet st.indexCache resolved.paperID with
  | some cached =>
    rw [hc] at h
    dsimp only at h
    by_cases hsrc : cached.source = "pdf-cache"
    · rw [if_pos hsrc] at h
      simp only [Except.ok.injEq, Prod.mk.injEq] at h
      obtain ⟨hidx, hst⟩ := h
      subst hidx
      subst hst
      exact ⟨hc, Or.inl hsrc⟩
    · rw [if_neg hsrc] at h
      have := ensurePaperIndexStore_ok_inv resolved pt now st idx st' h
      exact ⟨this.1, Or.inr ⟨this.2.1, this.2.2.1, this.2.2.2.1, this.2.2.2.2⟩⟩
  | none =>
    rw [hc] at h
    dsimp only at h
    have := ensurePaperIndexStore_ok_inv resolved pt now st idx st' h
    exact ⟨this.1, Or.inr ⟨this.2.1, this.2.2.1, this.2.2.2.1, this.2.2.2.2⟩⟩

/-- **C4 (amended).** (a) A second `ensurePaperIndex` call for the same paper
with unchanged resolved text, source and title returns the identical stored
index and performs no second persistence write.  (b) When no in-memory
cached entry with source "pdf-cache" short-circuits the call and a stored
index exists, the index is rebuilt and re-persisted (overwriting the prior
entry for that paperID) exactly when the content hash, the source, or the
title differs from the stored index.  (c) When a cached entry with source
"pdf-cache" exists, it is returned as-is without examining the current
content — even if that content differs — with no rebuild and no write (the
deviation that forces this amendment). -/
theorem ensurePaperIndex_spec (resolved : ResolvedPaper) (pt : LoadedPaperText)
    (now now2 : String) (st : AgentState) :
    (∀ idx st', ensurePaperIndex resolved pt now st = .ok (idx, st') →
      ∃ st2, ensurePaperIndex resolved pt now2 st' = .ok (idx, st2) ∧
        st2.store = st'.store ∧ st2.diskWrites = st'.diskWrites) ∧
    ((∀ c, alGet st.indexCache resolved.paperID = some c → c.source ≠ "pdf-cache") →
      ∀ ex, alGet st.store.papers resolved.paperID = some ex →
      ((ex.hash = hashText (normalizeText pt.text) ∧ ex.source = pt.source ∧
          ex.title = resolved.title →
        ∃ st', ensurePaperIndex resolved pt now st = .ok (ex, st') ∧
          st'.store = st.store ∧ st'.diskWrites = st.diskWrites) ∧
       (¬(ex.hash = hashText (normalizeText pt.text) ∧ ex.source = pt.source ∧
            ex.title = resolved.title) →
        (∃ e, ensurePaperIndex resolved pt now st = .error e) ∨
        (∃ idx st', ensurePaperIndex resolved pt now st = .ok (idx, st') ∧
          idx.hash = hashText (normalizeText pt.text) ∧
          idx.source = pt.source ∧ idx.title = resolved.title ∧
          alGet st'.store.papers resolved.paperID = some idx ∧
          st'.diskWrites = st.diskWrites ++ [st'.store])))) ∧
    (∀ c, alGet st.indexCache resolved.paperID = some c → c.source = "pdf-cache" →
      ensurePaperIndex resolved pt now st = .ok (c, st)) := by
  have hstore : ∀ (now' : String) (stx : AgentState),
      (∀ c, alGet stx.indexCache resolved.paperID = some c →
        c.source ≠ "pdf-cache") →
      ensurePaperIndex resolved pt now' stx =
        ensurePaperIndexStore resolved pt now' stx := by
    intro now' stx hnc
    unfold ensurePaperIndex
    cases hc : alGet stx.indexCache resolved.paperID with
    | some cached => dsimp only; rw [if_neg (hnc cached hc)]
    | none => rfl
  refine ⟨?_, ?_, ?_⟩
  · -- (a) second-call idempotence
    intro idx st' h
    obtain ⟨hcache, hrest⟩ := ensurePaperIndex_ok_inv resolved pt now st idx st' h
    by_cases hsrc : idx.source = "pdf-cache"
    · refine ⟨st', ?_, rfl, rfl⟩
      unfold ensurePaperIndex
      rw [hcache]
      dsimp only
      rw [if_pos hsrc]
    · rcases hrest with hsrc' | ⟨hstored, hhash, hsource, htitle⟩
      · exact absurd hsrc' hsrc
      · refine ⟨{ st' with
          indexCache := alSet st'.indexCache resolved.paperID idx }, ?_, rfl, rfl⟩
        unfold ensurePaperIndex
        rw [hcache]
        dsimp only
        rw [if_neg hsrc]
        unfold ensurePaperIndexStore
        rw [hstored]
        dsimp only
        rw [if_pos ⟨hhash, hsource, htitle⟩]
  · -- (b) rebuild-iff without a pdf-cache cache entry
    intro hnc ex hex
    constructor
    · intro hmatch
      refine ⟨{ st with indexCache := alSet st.indexCache resolved.paperID ex },
        ?_, rfl, rfl⟩
      rw [hstore now st hnc]
      unfold ensurePaperIndexStore
      rw [hex]
      dsimp only
      rw [if_pos hmatch]
    · intro hmatch
      rw [hstore now st hnc]
      unfold ensurePaperIndexStore
      rw [hex]
      dsimp only
      rw [if_neg hmatch]
      unfold buildAndPersistIndex buildPaperIndex
      by_cases hch : chunkText (normalizeText pt.text) = []
      · rw [if_pos hch]
        exact Or.inl ⟨_, rfl⟩
      · rw [if_neg hch]
        dsimp only
        refine Or.inr ⟨_, _, rfl, rfl, rfl, rfl, alGet_alSet_self _ _ _, rfl⟩
  · -- (c) the pdf-cache fast path
    intro c hc hsrc
    unfold ensurePaperIndex
    rw [hc]
    dsimp only
    rw [if_pos hsrc]

/-! Concrete two-call scenario for C4: first index "hello world" from the PDF
cache, then present different content. -/

def c4resolved : ResolvedPaper := ⟨"p1", "T"⟩
def c4text1 : LoadedPaperText := ⟨"hello world".toList, "pdf-cache"⟩
def c4text2 : LoadedPaperText := ⟨"completely different".toList, "pdf-cache"⟩
def c4state0 : AgentState := ⟨emptyPaperStore, [], []⟩
def c4run1 : Except String (PaperIndex × AgentState) :=
  ensurePaperIndex c4resolved c4text1 "t1" c4state0
def c4idx1 : PaperIndex := (c4run1.toOption.map Prod.fst).getD default
def c4state1 : AgentState := (c4run1.toOption.map Prod.snd).getD c4state0
def c4run2 : Except String (PaperIndex × AgentState) :=
  ensurePaperIndex c4resolved c4text2 "t2" c4state1

/-- **C4 (counterexample).** After a first build from "pdf-cache" content, a
second `ensurePaperIndex` call with *different* resolved text returns the
stale cached index unchanged — its hash differs from the hash of the current
content — and performs no further write, contradicting "rebuilt and
re-persisted exactly when the content hash … differs". -/
theorem except_eq_ok_of_toOption {α : Type} (e : Except String α) (a : α)
    (h : e.toOption = some a) : e = .ok a := by
  cases e with
  | error err => simp [Except.toOption] at h
  | ok b => simp [Except.toOption] at h; rw [h]

theorem ensurePaperIndex_counterexample :
    c4run2.toOption = some (c4idx1, c4state1) ∧
    c4idx1.hash ≠ hashText (normalizeText c4text2.text) ∧
    c4state1.diskWrites.length = 1 := by decide

theorem ensurePaperIndex_spec_witness :
    (c4run1.toOption = some (c4idx1, c4state1)) ∧
    ∃ st2, ensurePaperIndex c4resolved c4text1 "t3" c4state1 = .ok (c4idx1, st2) ∧
      st2.store = c4state1.store ∧ st2.diskWrites = c4state1.diskWrites :=
  ⟨by decide,
   (ensurePaperIndex_spec c4resolved c4text1 "t1" "t3" c4state0).1 c4idx1 c4state1
     (except_eq_ok_of_toOption _ _ (by decide))⟩

/-! ## Conversation memory (source: `appendConversation`,
`refreshConversationMemoryIfNeeded`) -/

/-- Source: `appendConversation` (`[...existing, ...messages].slice(-MAX_STORED_MESSAGES)`). -/
def appendConversation (paperID : String) (messages : List ChatMessage)
    (st : AgentState) : AgentState :=
  let existing := (alGet st.store.conversations paperID).getD []
  let combined := existing ++ messages
  let store' :=
    { st.store with
      conversations :=
        alSet st.store.conversations paperID
          (combined.drop (combined.length - MAX_STORED_MESSAGES)) }
  persistStoreS store' st

/-- The transcript of the last `MEMORY_SOURCE_WINDOW` messages (source: the
`transcript` constant in `refreshConversationMemoryIfNeeded`). -/
def memoryTranscript (conversation : List ChatMessage) : List Char :=
  joinLines ((conversation.drop (conversation.length - MEMORY_SOURCE_WINDOW)).map
    (fun message =>
      (if message.role = "user" then "User: ".toList else "Assistant: ".toList)
        ++ message.content))

/-- Source: `refreshConversationMemoryIfNeeded`.  `llm` abstracts the
dedicated summarization request (`requestLLM` on the rendered memory prompts,
which embed the transcript); `.error` models a thrown exception, caught and
logged by the function. -/
def refreshConversationMemoryIfNeeded
    (llm : List Char → Except String (List Char))
    (now : String) (paperID : String) (_title : String) (st : AgentState) :
    AgentState :=
  let conversation := (alGet st.store.conversations paperID).getD []
  if conversation.length < 4 then st
  else
    let memory := alGet st.store.memories paperID
    let turnCount : Nat := match memory with
      | some m => m.turnCount
      | none => 0
    if memory.isSome ∧
        (conversation.length : Int) - turnCount <
          (MEMORY_REFRESH_MIN_NEW_MESSAGES : Int) then st
    else
      match llm (memoryTranscript conversation) with
      | .error _ => st
      | .ok summary =>
        if trimChars summary = [] then st
        else
          let store' :=
            { st.store with
              memories :=
                alSet st.store.memories paperID
                  { summary := trimChars summary, updatedAt := now,
                    turnCount := conversation.length } }
          persistStoreS store' st

/-- **C7.** Memory refresh is performed only when the stored conversation has
at least 4 messages and either no memory exists yet or at least
`MEMORY_REFRESH_MIN_NEW_MESSAGES = 6` messages arrived since the stored
`turnCount`; a successful refresh stores the trimmed summary with `turnCount`
set to the current conversation length (so `turnCount ≤ length` holds) and
persists once; a failed request is swallowed (the function is total) and
changes nothing. -/
theorem refreshConversationMemory_spec
    (llm : List Char → Except String (List Char)) (now paperID title : String)
    (st : AgentState) :
    ((((alGet st.store.conversations paperID).getD []).length < 4 →
      refreshConversationMemoryIfNeeded llm now paperID title st = st) ∧
    (∀ m, alGet st.store.memories paperID = some m →
      (((alGet st.store.conversations paperID).getD []).length : Int) - m.turnCount <
        (MEMORY_REFRESH_MIN_NEW_MESSAGES : Int) →
      refreshConversationMemoryIfNeeded llm now paperID title st = st) ∧
    (∀ e, llm (memoryTranscript ((alGet st.store.conversations paperID).getD [])) =
        .error e →
      refreshConversationMemoryIfNeeded llm now paperID title st = st) ∧
    (∀ summary, 4 ≤ ((alGet st.store.conversations paperID).getD []).length →
      (∀ m, alGet st.store.memories paperID = some m →
        (MEMORY_REFRESH_MIN_NEW_MESSAGES : Int) ≤
          (((alGet st.store.conversations paperID).getD []).length : Int) - m.turnCount) →
      llm (memoryTranscript ((alGet st.store.conversations paperID).getD [])) =
        .ok summary →
      trimChars summary ≠ [] →
      ∃ st', refreshConversationMemoryIfNeeded llm now paperID title st = st' ∧
        alGet st'.store.memories paperID =
          some { summary := trimChars summary, updatedAt := now,
                 turnCount := ((alGet st.store.conversations paperID).getD []).length } ∧
        st'.diskWrites = st.diskWrites ++ [st'.store])) := by
  refine ⟨?_, ?_, ?_, ?_⟩
  · intro hshort
    unfold refreshConversationMemoryIfNeeded
    rw [if_pos hshort]
  · intro m hm hfresh
    unfold refreshConversationMemoryIfNeeded
    by_cases hshort : ((alGet st.store.conversations paperID).getD []).length < 4
    · rw [if_pos hshort]
    · rw [if_neg hshort]
      dsimp only
      rw [hm]
      dsimp only
      rw [if_pos ⟨rfl, hfresh⟩]
  · intro e he
    unfold refreshConversationMemoryIfNeeded
    by_cases hshort : ((alGet st.store.conversations paperID).getD []).length < 4
    · rw [if_pos hshort]
    · rw [if_neg hshort]
      dsimp only
      cases hm : alGet st.store.memories paperID with
      | some m =>
        dsimp only
        by_cases hfresh : (((alGet st.store.conversations paperID).getD []).length : Int)
            - m.turnCount < (MEMORY_REFRESH_MIN_NEW_MESSAGES : Int)
        · rw [if_pos ⟨rfl, hfresh⟩]
        · rw [if_neg (by simp [hfresh])]
          rw [he]
      | none =>
        dsimp only
        rw [if_neg (by simp)]
        rw [he]
  · intro summary hlen hfresh hok hne
    unfold refreshConversationMemoryIfNeeded
    rw [if_neg (by omega)]
    dsimp only
    cases hm : alGet st.store.memories paperID with
    | some m =>
      dsimp only
      rw [if_neg (by simp only [Option.isSome_some, true_and]; push_neg; exact hfresh m hm)]
      rw [hok]
      dsimp only
      rw [if_neg hne]
      exact ⟨_, rfl, alGet_alSet_self _ _ _, rfl⟩
    | none =>
      dsimp only
      rw [if_neg (by simp)]
      rw [hok]
      dsimp only
      rw [if_neg hne]
      exact ⟨_, rfl, alGet_alSet_self _ _ _, rfl⟩

def c7msg (r : String) (n : Nat) : ChatMessage :=
  { role := r, content := ("m" ++ toString n).toList, createdAt := "t0",
    sectionLinks := none }

def c7conv : List ChatMessage :=
  [c7msg "user" 1, c7msg "assistant" 2, c7msg "user" 3, c7msg "assistant" 4]

def c7state : AgentState :=
  ⟨{ emptyPaperStore with conversations := [("p", c7conv)] }, [], []⟩

def c7llm : List Char → Except String (List Char) := fun _ => .ok " sum ".toList

theorem refreshConversationMemory_spec_witness :
    (4 ≤ ((alGet c7state.store.conversations "p").getD []).length ∧
      trimChars " sum ".toList ≠ []) ∧
    ∃ st', refreshConversationMemoryIfNeeded c7llm "t1" "p" "T" c7state = st' ∧
      alGet st'.store.memories "p" =
        some { summary := trimChars " sum ".toList, updatedAt := "t1",
               turnCount := ((alGet c7state.store.conversations "p").getD []).length } ∧
      st'.diskWrites = c7state.diskWrites ++ [st'.store] := by
  refine ⟨⟨by decide, by decide⟩, ?_⟩
  exact (refreshConversationMemory_spec c7llm "t1" "p" "T" c7state).2.2.2
    " sum ".toList (by decide)
    (fun m hm => by rw [show alGet c7state.store.memories "p" = none from rfl] at hm; cases hm)
    rfl (by decide)

/-! ## Serialized store write queue (source: `persistStore`, `loadStore`)

`persistStore` synchronously replaces the in-memory cache (`storeCache =
store`), serializes the snapshot (`JSON.stringify(store)` runs before the
write is enqueued), and chains the file write onto the promise
`storeWriteQueue`; promise chaining runs the continuations one at a time in
chain order.  The queue is modelled as the list of pending serialized
snapshots; `writeStep` is the event loop completing the oldest pending
write; a write failure only logs (the `.catch`), leaving the chain intact. -/

structure WriteQueueState where
  storeCache : Option PaperStore
  pending : List PaperStore
  written : List PaperStore
deriving Repr, DecidableEq

/-- `persistStore(store)`: cache the store and enqueue its serialized snapshot. -/
def persistStoreCall (store : PaperStore) (s : WriteQueueState) : WriteQueueState :=
  { storeCache := some store, pending := s.pending ++ [store], written := s.written }

/-- The event loop completing the oldest pending write. -/
def writeStep (s : WriteQueueState) : WriteQueueState :=
  match s.pending with
  | [] => s
  | p :: rest => { s with pending := rest, written := s.written ++ [p] }

inductive QueueAction where
  | persist (store : PaperStore)
  | step
deriving Repr, DecidableEq

def runQueue (s : WriteQueueState) : List QueueAction → WriteQueueState
  | [] => s
  | QueueAction.persist store :: rest => runQueue (persistStoreCall store s) rest
  | QueueAction.step :: rest => runQueue (writeStep s) rest

/-- The stores passed to `persistStore`, in call order. -/
def persistCallsOf (acts : List QueueAction) : List PaperStore :=
  acts.filterMap (fun a => match a with
    | QueueAction.persist store => some store
    | QueueAction.step => none)

theorem runQueue_inv (acts : List QueueAction) :
    ∀ s : WriteQueueState,
      (runQueue s acts).written ++ (runQueue s acts).pending =
        s.written ++ s.pending ++ persistCallsOf acts := by
  induction acts with
  | nil => intro s; simp [runQueue, persistCallsOf]
  | cons a rest ih =>
    intro s
    cases a with
    | persist store =>
      rw [runQueue, ih]
      simp [persistStoreCall, persistCallsOf, List.filterMap_cons]
    | step =>
      rw [runQueue, ih]
      cases hp : s.pending with
      | nil => simp [writeStep, hp, persistCallsOf, List.filterMap_cons]
      | cons p restp =>
        simp only [writeStep, hp, persistCallsOf, List.filterMap_cons]
        simp [List.append_assoc]

/-- **C9.** All store writes go through one ordered queue: after any
interleaving of `persistStore` calls and write completions starting from the
empty queue, the on-disk write log followed by the still-pending snapshots
equals the persisted snapshots in call order — writes are completed one at a
time, the on-disk order equals the call order (the log is always a prefix of
the call-order snapshot list), and each completed write carries exactly the
store value that was current in memory when its call was enqueued. -/
theorem persistStore_queue_spec (acts : List QueueAction) (s₀ : WriteQueueState)
    (hp : s₀.pending = []) (hw : s₀.written = []) :
    (runQueue s₀ acts).written ++ (runQueue s₀ acts).pending = persistCallsOf acts ∧
    (runQueue s₀ acts).written =
      (persistCallsOf acts).take (runQueue s₀ acts).written.length := by
  have h := runQueue_inv acts s₀
  rw [hp, hw] at h
  simp only [List.append_nil, List.nil_append] at h
  refine ⟨h, ?_⟩
  rw [← h]
  rw [List.take_left]

def c9A : PaperStore := emptyPaperStore
def c9B : PaperStore := { emptyPaperStore with version := 3 }

theorem persistStore_queue_spec_witness :
    ((⟨none, [], []⟩ : WriteQueueState).pending = [] ∧
      (⟨none, [], []⟩ : WriteQueueState).written = []) ∧
    (runQueue ⟨none, [], []⟩
        [QueueAction.persist c9A, QueueAction.persist c9B,
         QueueAction.step, QueueAction.step]).written ++
      (runQueue ⟨none, [], []⟩
        [QueueAction.persist c9A, QueueAction.persist c9B,
         QueueAction.step, QueueAction.step]).pending =
      persistCallsOf
        [QueueAction.persist c9A, QueueAction.persist c9B,
         QueueAction.step, QueueAction.step] :=
  ⟨⟨rfl, rfl⟩,
   (persistStore_queue_spec
     [QueueAction.persist c9A, QueueAction.persist c9B,
      QueueAction.step, QueueAction.step]
     ⟨none, [], []⟩ rfl rfl).1⟩

/-! ## Retrieval engine (source: `tokenize`, `scoreChunk`, `normalizeScores`,
`selectSummaryChunks`, `limitChunksByContext`, `retrieveRelevantChunks`) -/

/-- The character classes kept by the tokenizer's regex
`[^a-z0-9À-ɏ一-鿿가-힯\s]` (after lowercasing). -/
def isTokenChar (c : Char) : Bool :=
  ('a' ≤ c && c ≤ 'z') || ('0' ≤ c && c ≤ '9') ||
  (0xC0 ≤ c.toNat && c.toNat ≤ 0x24F) ||
  (0x4E00 ≤ c.toNat && c.toNat ≤ 0x9FFF) ||
  (0xAC00 ≤ c.toNat && c.toNat ≤ 0xD7AF)

/-- `split(/\s/)`-style splitter; the segments differ from `split(/\s+/)`
only by empty strings, which the `length > 1` filter removes anyway. -/
def splitWsGo : List Char → List Char → List (List Char)
  | [], acc => [acc.reverse]
  | c :: rest, acc =>
    if isJsWhitespace c then acc.reverse :: splitWsGo rest []
    else splitWsGo rest (c :: acc)

def splitWs (l : List Char) : List (List Char) := splitWsGo l []

/-- Source: `tokenize` (lowercase — modelled by the ASCII case map, enough
for the kept classes —, strip, split, drop single-character tokens). -/
def tokenize (text : List Char) : List (List Char) :=
  (splitWs ((text.map Char.toLower).map
      (fun c => if isTokenChar c || isJsWhitespace c then c else ' '))).filter
    (fun token => 1 < token.length)

/-- Source: `scoreChunk`.  `jsLog` abstracts `Math.log` on the (positive)
term frequency, `jsSqrt` abstracts `Math.sqrt` on the positive token count. -/
def scoreChunk (jsLog : Nat → ℚ) (jsSqrt : Nat → ℚ)
    (text : List Char) (queryTokens : List (List Char)) : ℚ :=
  let tokens := tokenize text
  if tokens.length = 0 then 0
  else
    let score := queryTokens.foldl (fun acc token =>
      let tf := tokens.count token
      if 0 < tf then acc + (1 + jsLog tf) else acc) 0
    score / jsSqrt tokens.length

/-- `Array.from(new Set(xs))`: first-occurrence deduplication. -/
def dedupeKeepFirst (seen : List (List Char)) : List (List Char) → List (List Char)
  | [] => []
  | t :: rest =>
    if t ∈ seen then dedupeKeepFirst seen rest
    else t :: dedupeKeepFirst (t :: seen) rest

def selectSummaryChunksGo : List TextChunk → Nat → List TextChunk
  | [], _ => []
  | c :: rest, charCount =>
    c :: (if MAX_CONTEXT_CHARS ≤ charCount + c.text.length then []
          else selectSummaryChunksGo rest (charCount + c.text.length))

/-- Source: `selectSummaryChunks` (content-order prefix within the character
budget; the chunk crossing the budget is still included). -/
def selectSummaryChunks (index : PaperIndex) : List TextChunk :=
  selectSummaryChunksGo index.chunks 0

def limitChunksByContextGo (maxChars : Nat) : List TextChunk → Nat → List TextChunk
  | [], _ => []
  | c :: rest, charCount =>
    c :: (if maxChars ≤ charCount + c.text.length then []
          else limitChunksByContextGo maxChars rest (charCount + c.text.length))

/-- Source: `limitChunksByContext`. -/
def limitChunksByContext (chunks : List TextChunk)
    (maxChars : Nat := MAX_CONTEXT_CHARS) : List TextChunk :=
  limitChunksByContextGo maxChars chunks 0

/-- Stable insertion of one element into a descending-by-key list: models one
placement of the JS stable `sort((a, b) => key(b) - key(a))`. -/
def insertDescBy {α : Type} (key : α → ℚ) (a : α) : List α → List α
  | [] => [a]
  | b :: rest =>
    if key b < key a then a :: b :: rest
    else b :: insertDescBy key a rest

/-- Stable descending sort by key. -/
def sortDescBy {α : Type} (key : α → ℚ) : List α → List α
  | [] => []
  | a :: rest => insertDescBy key a (sortDescBy key rest)

/-- Source: `normalizeScores` (min-max normalization into [0,1]; all-equal
scores — within the 1e-9 tolerance — normalize to 1). -/
def normalizeScores (scores : List (String × ℚ)) : List (String × ℚ) :=
  match scores.map Prod.snd with
  | [] => []
  | v :: vs =>
    let mn := vs.foldl min v
    let mx := vs.foldl max v
    if |mx - mn| < 1 / 1000000000 then scores.map (fun p => (p.1, (1 : ℚ)))
    else scores.map (fun p => (p.1, (p.2 - mn) / (mx - mn)))

/-- The `lexicalScores` map of `retrieveRelevantChunks`: per-chunk keyword
scores, keeping only positive ones. -/
def computeLexicalScores (jsLog jsSqrt : Nat → ℚ) (chunks : List TextChunk)
    (queryTokens : List (List Char)) : List (String × ℚ) :=
  chunks.foldl (fun m chunk =>
    let score := scoreChunk jsLog jsSqrt chunk.text queryTokens
    if 0 < score then alSet m chunk.id score else m) []

/-- The `denseScores` map: cosine similarity per chunk with a cached vector
(`Number.isFinite` always holds in the rational model). -/
def computeDenseScores (sqrtQ : ℚ → ℚ) (queryVector : List ℚ)
    (chunkVectors : List (String × List ℚ)) (chunks : List TextChunk) :
    List (String × ℚ) :=
  chunks.foldl (fun m chunk =>
    match alGet chunkVectors chunk.id with
    | none => m
    | some vector =>
      if vector = [] then m
      else alSet m chunk.id (cosineSimilarity sqrtQ queryVector vector)) []

structure RetrievalResult where
  chunks : List TextChunk
  retrievalMode : String
deriving Repr, DecidableEq

/-- The `keywordChunks` constant of `retrieveRelevantChunks`: positive-score
chunks, stably sorted by descending keyword score, capped at `topK` and by
the context character budget. -/
def keywordChunksOf (jsLog jsSqrt : Nat → ℚ) (index : PaperIndex)
    (queryTokens : List (List Char)) (topK : Nat) : List TextChunk :=
  let lexicalScores := computeLexicalScores jsLog jsSqrt index.chunks queryTokens
  limitChunksByContext
    ((sortDescBy (fun chunk => (alGet lexicalScores chunk.id).getD 0)
      (index.chunks.filter
        (fun chunk => 0 < (alGet lexicalScores chunk.id).getD 0))).take topK)

/-- Source: `retrieveRelevantChunks`.  `hybridEnabled` abstracts
`isHybridSearchEnabled()`; `queryVecR` and `chunkVecsR` are the outcomes of
`requestEmbedding(query)` and `getOrCreateChunkEmbeddings(paperID, index)`
(`.error` models a thrown exception, handled by the `catch`). -/
def retrieveRelevantChunks (jsLog jsSqrt : Nat → ℚ) (sqrtQ : ℚ → ℚ)
    (hybridEnabled : Bool)
    (queryVecR : Except String (List ℚ))
    (chunkVecsR : Except String (List (String × List ℚ)))
    (_paperID : String) (index : PaperIndex) (query : List Char) (topK : Nat) :
    RetrievalResult :=
  let queryTokens := dedupeKeepFirst [] (tokenize query)
  if queryTokens.length = 0 then
    { chunks := (selectSummaryChunks index).take topK, retrievalMode := "keyword" }
  else
    let lexicalScores := computeLexicalScores jsLog jsSqrt index.chunks queryTokens
    let keywordChunks := keywordChunksOf jsLog jsSqrt index queryTokens topK
    if hybridEnabled = false then
      { chunks := if keywordChunks = [] then (selectSummaryChunks index).take topK
                  else keywordChunks,
        retrievalMode := "keyword" }
    else
      match queryVecR, chunkVecsR with
      | .ok queryVector, .ok chunkVectors =>
        if queryVector.length = 0 ∨ chunkVectors.length = 0 then
          { chunks := if keywordChunks = [] then (selectSummaryChunks index).take topK
                      else keywordChunks,
            retrievalMode := "keyword" }
        else
          let denseScores := computeDenseScores sqrtQ queryVector chunkVectors index.chunks
          let lexicalNorm := normalizeScores lexicalScores
          let denseNorm := normalizeScores denseScores
          let denseWeight : ℚ := if queryTokens.length < 4 then 62 / 100 else 55 / 100
          let lexicalWeight := 1 - denseWeight
          let ranked := ((sortDescBy (fun entry => entry.2)
            ((index.chunks.map (fun chunk =>
                (chunk, lexicalWeight * (alGet lexicalNorm chunk.id).getD 0 +
                  denseWeight * (alGet denseNorm chunk.id).getD 0))).filter
              (fun entry => 0 < entry.2))).take topK).map Prod.fst
          if ranked = [] then
            { chunks := if keywordChunks = [] then (selectSummaryChunks index).take topK
                        else keywordChunks,
              retrievalMode := "keyword" }
          else
            { chunks := limitChunksByContext ranked, retrievalMode := "hybrid" }
      | _, _ =>
        { chunks := if keywordChunks = [] then (selectSummaryChunks index).take topK
                    else keywordChunks,
          retrievalMode := "keyword" }

theorem alGet_alSet_ne {α : Type} (m : List (String × α)) (k k' : String) (v : α)
    (h : k' ≠ k) : alGet (alSet m k v) k' = alGet m k' := by
  unfold alGet alSet
  by_cases hany : m.any (fun p => p.1 = k) = true
  · rw [if_pos hany]
    clear hany
    induction m with
    | nil => rfl
    | cons p rest ih =>
      simp only [List.map_cons]
      by_cases hp' : p.1 = k'
      · have hpk : ¬p.1 = k := by rw [hp']; exact h
        rw [if_neg hpk]
        rw [List.find?_cons_of_pos _ (by simp [hp']),
          List.find?_cons_of_pos _ (by simp [hp'])]
      · by_cases hpk : p.1 = k
        · rw [if_pos hpk]
          rw [List.find?_cons_of_neg _ (by simp [Ne.symm h]),
            List.find?_cons_of_neg _ (by simp [hp'])]
          exact ih
        · rw [if_neg hpk]
          rw [List.find?_cons_of_neg _ (by simp [hp']),
            List.find?_cons_of_neg _ (by simp [hp'])]
          exact ih
  · rw [if_neg hany]
    induction m with
    | nil =>
      simp only [List.nil_append]
      rw [List.find?_cons_of_neg _ (by simp [Ne.symm h])]
    | cons p rest ih =>
      have hrest : ¬rest.any (fun p => p.1 = k) = true := by
        intro hr
        exact hany (by simp [List.any_cons, hr])
      simp only [List.cons_append]
      by_cases hp' : p.1 = k'
      · rw [List.find?_cons_of_pos _ (by simp [hp']),
          List.find?_cons_of_pos _ (by simp [hp'])]
      · rw [List.find?_cons_of_neg _ (by simp [hp']),
          List.find?_cons_of_neg _ (by simp [hp'])]
        exact ih hrest

theorem alGet_alSet_isSome {α : Type} (m : List (String × α)) (k k' : String)
    (v : α) (h : (alGet m k').isSome) : (alGet (alSet m k v) k').isSome := by
  by_cases hk : k' = k
  · subst hk
    rw [alGet_alSet_self]
    rfl
  · rw [alGet_alSet_ne m k k' v hk]
    exact h

/-- The step function of the `lexicalScores` fold. -/
def lexStep (jsLog jsSqrt : Nat → ℚ) (queryTokens : List (List Char))
    (m : List (String × ℚ)) (chunk : TextChunk) : List (String × ℚ) :=
  let score := scoreChunk jsLog jsSqrt chunk.text queryTokens
  if 0 < score then alSet m chunk.id score else m

theorem computeLexicalScores_eq_fold (jsLog jsSqrt : Nat → ℚ)
    (chunks : List TextChunk) (queryTokens : List (List Char)) :
    computeLexicalScores jsLog jsSqrt chunks queryTokens =
      chunks.foldl (lexStep jsLog jsSqrt queryTokens) [] := rfl

theorem lexFold_pos (jsLog jsSqrt : Nat → ℚ) (queryTokens : List (List Char)) :
    ∀ (chunks : List TextChunk) (m : List (String × ℚ)),
      (∀ k v, alGet m k = some v → 0 < v) →
      ∀ k v, alGet (chunks.foldl (lexStep jsLog jsSqrt queryTokens) m) k = some v →
        0 < v := by
  intro chunks
  induction chunks with
  | nil => intro m hm k v h; exact hm k v h
  | cons c rest ih =>
    intro m hm k v h
    rw [List.foldl_cons] at h
    refine ih _ ?_ k v h
    intro k' v' h'
    unfold lexStep at h'
    dsimp only at h'
    by_cases hs : 0 < scoreChunk jsLog jsSqrt c.text queryTokens
    · rw [if_pos hs] at h'
      by_cases hk : k' = c.id
      · subst hk
        rw [alGet_alSet_self] at h'
        cases h'
        exact hs
      · rw [alGet_alSet_ne _ _ _ _ hk] at h'
        exact hm k' v' h'
    · rw [if_neg hs] at h'
      exact hm k' v' h'

theorem lexFold_preserves_isSome (jsLog jsSqrt : Nat → ℚ)
    (queryTokens : List (List Char)) :
    ∀ (chunks : List TextChunk) (m : List (String × ℚ)) (k : String),
      (alGet m k).isSome →
      (alGet (chunks.foldl (lexStep jsLog jsSqrt queryTokens) m) k).isSome := by
  intro chunks
  induction chunks with
  | nil => intro m k h; exact h
  | cons c rest ih =>
    intro m k h
    rw [List.foldl_cons]
    refine ih _ k ?_
    unfold lexStep
    dsimp only
    by_cases hs : 0 < scoreChunk jsLog jsSqrt c.text queryTokens
    · rw [if_pos hs]
      exact alGet_alSet_isSome m c.id k _ h
    · rw [if_neg hs]
      exact h

theorem lexFold_isSome (jsLog jsSqrt : Nat → ℚ) (queryTokens : List (List Char)) :
    ∀ (chunks : List TextChunk) (m : List (String × ℚ)) (c : TextChunk),
      c ∈ chunks → 0 < scoreChunk jsLog jsSqrt c.text queryTokens →
      (alGet (chunks.foldl (lexStep jsLog jsSqrt queryTokens) m) c.id).isSome := by
  intro chunks
  induction chunks with
  | nil => intro m c hc; cases hc
  | cons x rest ih =>
    intro m c hc hscore
    rw [List.foldl_cons]
    rcases List.mem_cons.1 hc with rfl | hrest
    · refine lexFold_preserves_isSome jsLog jsSqrt queryTokens rest _ c.id ?_
      unfold lexStep
      dsimp only
      rw [if_pos hscore, alGet_alSet_self]
      rfl
    · exact ih _ c hrest hscore

theorem lexFold_nil (jsLog jsSqrt : Nat → ℚ) (queryTokens : List (List Char)) :
    ∀ (chunks : List TextChunk) (m : List (String × ℚ)),
      (∀ c ∈ chunks, scoreChunk jsLog jsSqrt c.text queryTokens ≤ 0) →
      chunks.foldl (lexStep jsLog jsSqrt queryTokens) m = m := by
  intro chunks
  induction chunks with
  | nil => intro m _; rfl
  | cons c rest ih =>
    intro m hle
    rw [List.foldl_cons]
    have hstep : lexStep jsLog jsSqrt queryTokens m c = m := by
      unfold lexStep
      dsimp only
      rw [if_neg (not_lt.2 (hle c (List.mem_cons_self c rest)))]
    rw [hstep]
    exact ih m (fun d hd => hle d (List.mem_cons_of_mem c hd))

theorem insertDescBy_ne_nil {α : Type} (key : α → ℚ) (a : α) (l : List α) :
    insertDescBy key a l ≠ [] := by
  cases l with
  | nil => simp [insertDescBy]
  | cons b rest =>
    unfold insertDescBy
    split <;> simp

theorem sortDescBy_ne_nil {α : Type} (key : α → ℚ) (l : List α) (h : l ≠ []) :
    sortDescBy key l ≠ [] := by
  cases l with
  | nil => exact absurd rfl h
  | cons a rest =>
    unfold sortDescBy
    exact insertDescBy_ne_nil key a _

theorem take_ne_nil_of_pos {α : Type} (l : List α) (n : Nat) (hl : l ≠ [])
    (hn : 0 < n) : l.take n ≠ [] := by
  cases l with
  | nil => exact absurd rfl hl
  | cons a rest =>
    cases n with
    | zero => omega
    | succ m => simp

theorem limitChunksByContext_ne_nil (chunks : List TextChunk) (h : chunks ≠ []) :
    limitChunksByContext chunks ≠ [] := by
  cases chunks with
  | nil => exact absurd rfl h
  | cons c rest => simp [limitChunksByContext, limitChunksByContextGo]

theorem selectSummaryChunks_ne_nil (index : PaperIndex) (h : index.chunks ≠ []) :
    selectSummaryChunks index ≠ [] := by
  unfold selectSummaryChunks
  cases hc : index.chunks with
  | nil => exact absurd hc h
  | cons c rest => simp [selectSummaryChunksGo]

theorem scoreChunk_nil_query (jsLog jsSqrt : Nat → ℚ) (text : List Char) :
    scoreChunk jsLog jsSqrt text [] = 0 := by
  unfold scoreChunk
  dsimp only
  split
  · rfl
  · simp [List.foldl_nil]

/-- With at least one positive-score chunk and positive `topK`, the scored
keyword selection is non-empty. -/
theorem keywordChunksOf_ne_nil (jsLog jsSqrt : Nat → ℚ) (index : PaperIndex)
    (queryTokens : List (List Char)) (topK : Nat) (htopK : 0 < topK)
    (hpos : ∃ c ∈ index.chunks, 0 < scoreChunk jsLog jsSqrt c.text queryTokens) :
    keywordChunksOf jsLog jsSqrt index queryTokens topK ≠ [] := by
  obtain ⟨c, hc, hscore⟩ := hpos
  unfold keywordChunksOf
  dsimp only
  apply limitChunksByContext_ne_nil
  apply take_ne_nil_of_pos _ _ _ htopK
  apply sortDescBy_ne_nil
  apply List.ne_nil_of_mem (a := c)
  rw [List.mem_filter]
  refine ⟨hc, ?_⟩
  rw [computeLexicalScores_eq_fold]
  have hsome := lexFold_isSome jsLog jsSqrt queryTokens index.chunks [] c hc hscore
  obtain ⟨v, hv⟩ := Option.isSome_iff_exists.1 hsome
  have hvpos := lexFold_pos jsLog jsSqrt queryTokens index.chunks []
    (fun k v h => by simp [alGet] at h) c.id v hv
  rw [hv]
  simpa using hvpos

/-- With no positive-score chunk, the keyword selection is empty. -/
theorem keywordChunksOf_nil (jsLog jsSqrt : Nat → ℚ) (index : PaperIndex)
    (queryTokens : List (List Char)) (topK : Nat)
    (hle : ∀ c ∈ index.chunks, scoreChunk jsLog jsSqrt c.text queryTokens ≤ 0) :
    keywordChunksOf jsLog jsSqrt index queryTokens topK = [] := by
  unfold keywordChunksOf
  dsimp only
  rw [computeLexicalScores_eq_fold]
  rw [lexFold_nil jsLog jsSqrt queryTokens index.chunks [] hle]
  have hfil : index.chunks.filter
      (fun chunk => decide (0 < (alGet ([] : List (String × ℚ)) chunk.id).getD 0)) = [] := by
    apply List.filter_eq_nil.2
    intro c hc
    simp [alGet]
  rw [hfil]
  simp [sortDescBy, limitChunksByContext, limitChunksByContextGo]

/-- **C3.** If the embedding path of `retrieveRelevantChunks` fails — the
query-embedding request or the chunk-embedding retrieval throws, or the query
vector is empty, or there are no chunk vectors — the error is not propagated:
the call returns retrievalMode "keyword"; the returned list is the non-empty
scored keyword selection whenever at least one chunk has a positive
keyword-overlap score with the query, and with no positive-score chunk a
content-order prefix of the chunks (`selectSummaryChunks`, capped at `topK`)
is returned instead of an empty list. -/
theorem retrieveRelevantChunks_spec (jsLog jsSqrt : Nat → ℚ) (sqrtQ : ℚ → ℚ)
    (queryVecR : Except String (List ℚ))
    (chunkVecsR : Except String (List (String × List ℚ)))
    (paperID : String) (index : PaperIndex) (query : List Char) (topK : Nat)
    (htopK : 0 < topK) (hchunks : index.chunks ≠ [])
    (hfail : (∃ e, queryVecR = .error e) ∨ (∃ e, chunkVecsR = .error e) ∨
      queryVecR = .ok [] ∨ chunkVecsR = .ok []) :
    (retrieveRelevantChunks jsLog jsSqrt sqrtQ true queryVecR chunkVecsR
      paperID index query topK).retrievalMode = "keyword" ∧
    ((∃ c ∈ index.chunks,
        0 < scoreChunk jsLog jsSqrt c.text (dedupeKeepFirst [] (tokenize query))) →
      (retrieveRelevantChunks jsLog jsSqrt sqrtQ true queryVecR chunkVecsR
          paperID index query topK).chunks =
        keywordChunksOf jsLog jsSqrt index (dedupeKeepFirst [] (tokenize query)) topK ∧
      (retrieveRelevantChunks jsLog jsSqrt sqrtQ true queryVecR chunkVecsR
        paperID index query topK).chunks ≠ []) ∧
    ((∀ c ∈ index.chunks,
        scoreChunk jsLog jsSqrt c.text (dedupeKeepFirst [] (tokenize query)) ≤ 0) →
      (retrieveRelevantChunks jsLog jsSqrt sqrtQ true queryVecR chunkVecsR
          paperID index query topK).chunks =
        (selectSummaryChunks index).take topK ∧
      (retrieveRelevantChunks jsLog jsSqrt sqrtQ true queryVecR chunkVecsR
        paperID index query topK).chunks ≠ []) := by
  have hsummary : (selectSummaryChunks index).take topK ≠ [] :=
    take_ne_nil_of_pos _ _ (selectSummaryChunks_ne_nil index hchunks) htopK
  -- the result in every embedding-failure branch
  have hres : retrieveRelevantChunks jsLog jsSqrt sqrtQ true queryVecR chunkVecsR
      paperID index query topK =
      (if (dedupeKeepFirst [] (tokenize query)).length = 0 then
        { chunks := (selectSummaryChunks index).take topK, retrievalMode := "keyword" }
      else
        { chunks :=
            if keywordChunksOf jsLog jsSqrt index (dedupeKeepFirst [] (tokenize query))
                topK = [] then
              (selectSummaryChunks index).take topK
            else keywordChunksOf jsLog jsSqrt index
              (dedupeKeepFirst [] (tokenize query)) topK,
          retrievalMode := "keyword" }) := by
    unfold retrieveRelevantChunks
    by_cases hq : (dedupeKeepFirst [] (tokenize query)).length = 0
    · rw [if_pos hq, if_pos hq]
    · rw [if_neg hq, if_neg hq]
      dsimp only
      rw [if_neg (by simp)]
      rcases hfail with ⟨e, rfl⟩ | ⟨e, rfl⟩ | rfl | rfl
      · cases chunkVecsR <;> rfl
      · cases queryVecR with
        | error e' => rfl
        | ok qv => rfl
      · cases chunkVecsR with
        | error e' => rfl
        | ok cv =>
          dsimp only
          rw [if_pos (show ([] : List ℚ).length = 0 ∨ cv.length = 0 from Or.inl rfl)]
      · cases queryVecR with
        | error e' => rfl
        | ok qv =>
          dsimp only
          rw [if_pos (show qv.length = 0 ∨
            ([] : List (String × List ℚ)).length = 0 from Or.inr rfl)]
  rw [hres]
  by_cases hq : (dedupeKeepFirst [] (tokenize query)).length = 0
  · rw [if_pos hq]
    have hqnil : dedupeKeepFirst [] (tokenize query) = [] := List.length_eq_zero.1 hq
    refine ⟨rfl, ?_, ?_⟩
    · intro hpos
      obtain ⟨c, _, hscore⟩ := hpos
      rw [hqnil, scoreChunk_nil_query] at hscore
      exact absurd hscore (lt_irrefl 0)
    · intro _
      exact ⟨rfl, hsummary⟩
  · rw [if_neg hq]
    refine ⟨rfl, ?_, ?_⟩
    · intro hpos
      have hkw := keywordChunksOf_ne_nil jsLog jsSqrt index
        (dedupeKeepFirst [] (tokenize query)) topK htopK hpos
      dsimp only
      rw [if_neg hkw]
      exact ⟨rfl, hkw⟩
    · intro hle
      have hkw := keywordChunksOf_nil jsLog jsSqrt index
        (dedupeKeepFirst [] (tokenize query)) topK hle
      dsimp only
      rw [if_pos hkw]
      exact ⟨rfl, hsummary⟩

def c3index : PaperIndex :=
  { hash := "h", title := "T", source := "abstract",
    chunks := [{ id := "chunk-1", text := "hello world".toList, start := 0, stop := 11 }],
    updatedAt := "t0" }

theorem retrieveRelevantChunks_spec_witness :
    ((0 : Nat) < 6 ∧ c3index.chunks ≠ [] ∧
      (∃ e, (Except.error "boom" : Except String (List ℚ)) = .error e)) ∧
    (retrieveRelevantChunks (fun _ => 0) (fun _ => 1) id true (.error "boom")
      (.ok []) "p" c3index "hello".toList 6).retrievalMode = "keyword" :=
  ⟨⟨by decide, by decide, ⟨"boom", rfl⟩⟩,
   (retrieveRelevantChunks_spec (fun _ => 0) (fun _ => 1) id (.error "boom")
     (.ok []) "p" c3index "hello".toList 6 (by decide) (by decide)
     (Or.inl ⟨"boom", rfl⟩)).1⟩

/-! ## Embedding cache (source: `getOrCreateChunkEmbeddings`,
`requestEmbeddings`) -/

structure EmbeddingConfig where
  endpoint : String
  apiKey : String
  model : String
deriving Repr, DecidableEq

/-- Source: `requestEmbeddings`.  `post` abstracts `postJSON` +
`extractEmbeddingVectors`; the configuration guard and the response-length
check are the source's. -/
def requestEmbeddings (cfg : EmbeddingConfig)
    (post : List (List Char) → Except String (List (List ℚ)))
    (texts : List (List Char)) : Except String (List (List ℚ)) :=
  if texts = [] then .ok []
  else if cfg.endpoint = "" ∨ cfg.model = "" then
    .error "Set embedding endpoint/model in plugin preferences before hybrid search."
  else
    match post texts with
    | .error e => .error e
    | .ok vectors =>
      if vectors.length ≠ texts.length then
        .error "Embedding response size mismatch."
      else .ok vectors

/-- The inner `j` loop over one batch: store each returned vector together
with the recomputed hash and mark dirty; a missing (`undefined`) vector —
only possible past the end of the response array — is skipped. -/
def storeBatch : PaperEmbeddings → Bool → List (TextChunk × String) →
    List (List ℚ) → PaperEmbeddings × Bool
  | working, dirty, [], _ => (working, dirty)
  | working, dirty, _ :: rest, [] => storeBatch working dirty rest []
  | working, dirty, (chunk, hash) :: rest, v :: vrest =>
    storeBatch
      { working with
        chunkHashes := alSet working.chunkHashes chunk.id hash,
        vectors := alSet working.vectors chunk.id v }
      true rest vrest

/-- The batch loop (`for (let i = 0; i < missing.length; i += EMBEDDING_BATCH_SIZE)`). -/
def embedBatches (cfg : EmbeddingConfig)
    (post : List (List Char) → Except String (List (List ℚ))) :
    List (TextChunk × String) → PaperEmbeddings → Bool →
    Except String (PaperEmbeddings × Bool)
  | [], working, dirty => .ok (working, dirty)
  | pair :: rest, working, dirty =>
    match requestEmbeddings cfg post
        (((pair :: rest).take EMBEDDING_BATCH_SIZE).map (fun p => p.1.text)) with
    | .error e => .error e
    | .ok vectors =>
      let stored := storeBatch working dirty ((pair :: rest).take EMBEDDING_BATCH_SIZE)
        vectors
      embedBatches cfg post ((pair :: rest).drop EMBEDDING_BATCH_SIZE) stored.1 stored.2
termination_by missing => missing.length
decreasing_by
  simp only [List.length_drop, List.length_cons, EMBEDDING_BATCH_SIZE]
  omega

/-- The source's `reset` flag: true when no entry is stored for the paper or
the stored entry's (endpoint, model) differs from the current configuration. -/
def resetOf (cfg : EmbeddingConfig) (entry : Option PaperEmbeddings) : Bool :=
  match entry with
  | none => true
  | some e => decide (¬(e.endpoint = cfg.endpoint ∧ e.model = cfg.model))

/-- The source's initial `working` object: the stored entry when its
configuration matches, otherwise a fresh empty cache for the current
configuration. -/
def effectiveEntry (cfg : EmbeddingConfig) (now : String)
    (entry : Option PaperEmbeddings) : PaperEmbeddings :=
  match entry with
  | none => ⟨cfg.endpoint, cfg.model, [], [], now⟩
  | some e =>
    if e.endpoint = cfg.endpoint ∧ e.model = cfg.model then
      ⟨e.endpoint, e.model, e.chunkHashes, e.vectors, e.updatedAt⟩
    else ⟨cfg.endpoint, cfg.model, [], [], now⟩

/-- The source's `staleKeys`: keys of cached vectors whose chunk ID is absent
from the current index. -/
def staleKeysOf (e : PaperEmbeddings) (index : PaperIndex) : List String :=
  (e.vectors.map Prod.fst).filter
    (fun key => decide (key ∉ index.chunks.map (fun chunk => chunk.id)))

/-- The source's stale-key deletion loop over `working.vectors` and
`working.chunkHashes`. -/
def pruneStale (e : PaperEmbeddings) (index : PaperIndex) : PaperEmbeddings :=
  { e with
    vectors := (staleKeysOf e index).foldl alDelete e.vectors,
    chunkHashes := (staleKeysOf e index).foldl alDelete e.chunkHashes }

/-- The source's `missing` list: chunks paired with their recomputed hash,
kept when the cached hash differs or the cached vector is absent or empty. -/
def missingOf (working : PaperEmbeddings) (index : PaperIndex) :
    List (TextChunk × String) :=
  (index.chunks.map (fun chunk => (chunk, hashText chunk.text))).filter
    (fun pair =>
      decide (alGet working.chunkHashes pair.1.id ≠ some pair.2) ||
      (match alGet working.vectors pair.1.id with
       | none => true
       | some v => decide (v = [])))

/-- The tail of `getOrCreateChunkEmbeddings` after the entry has been
resolved: stale pruning, missing selection, batch embedding, conditional
persistence. -/
def refreshEmbeddings (cfg : EmbeddingConfig)
    (post : List (List Char) → Except String (List (List ℚ)))
    (now : String) (paperID : String) (index : PaperIndex) (st : AgentState)
    (working0 : PaperEmbeddings) (reset : Bool) :
    Except String (List (String × List ℚ) × AgentState) :=
  let working := pruneStale working0 index
  let dirty := reset || decide (staleKeysOf working0 index ≠ [])
  match embedBatches cfg post (missingOf working index) working dirty with
  | .error e => .error e
  | .ok (working', dirty') =>
    if dirty' then
      let persisted : PaperEmbeddings := { working' with updatedAt := now }
      let store' := { st.store with
        embeddings := alSet st.store.embeddings paperID persisted }
      .ok (persisted.vectors.filter (fun p => p.2 ≠ []), persistStoreS store' st)
    else
      .ok (working'.vectors.filter (fun p => p.2 ≠ []), st)

/-- Source: `getOrCreateChunkEmbeddings`.  `cfg` is `getEmbeddingConfig()`;
`post` abstracts the embedding HTTP request. -/
def getOrCreateChunkEmbeddings (cfg : EmbeddingConfig)
    (post : List (List Char) → Except String (List (List ℚ)))
    (now : String) (paperID : String) (index : PaperIndex) (st : AgentState) :
    Except String (List (String × List ℚ) × AgentState) :=
  refreshEmbeddings cfg post now paperID index st
    (effectiveEntry cfg now (alGet st.store.embeddings paperID))
    (resetOf cfg (alGet st.store.embeddings paperID))

/-- The re-embedding criterion, read off the `missing` filter: the recomputed
content hash differs from the cached one, or the cached vector is missing or
empty. -/
def needsReembed (cached : PaperEmbeddings) (chunk : TextChunk) : Bool :=
  decide (alGet cached.chunkHashes chunk.id ≠ some (hashText chunk.text)) ||
  (match alGet cached.vectors chunk.id with
   | none => true
   | some v => decide (v = []))

theorem alGet_alDelete {α : Type} (m : List (String × α)) (k k' : String) :
    alGet (alDelete m k) k' = if k' = k then none else alGet m k' := by
  induction m with
  | nil =>
    unfold alGet alDelete
    simp only [List.filter_nil, List.find?_nil, Option.map_none']
    split <;> rfl
  | cons p rest ih =>
    unfold alGet alDelete at ih ⊢
    by_cases hpk : p.1 = k
    · rw [List.filter_cons_of_neg (by simp [hpk])]
      rw [ih]
      by_cases hk : k' = k
      · rw [if_pos hk, if_pos hk]
      · rw [if_neg hk, if_neg hk]
        rw [List.find?_cons_of_neg _ (by simp [hpk]; exact fun h => hk h.symm)]
    · rw [List.filter_cons_of_pos (by simp [hpk])]
      by_cases hpk' : p.1 = k'
      · have hk : ¬k' = k := fun h => hpk (by rw [hpk', h])
        rw [if_neg hk]
        rw [List.find?_cons_of_pos _ (by simp [hpk']),
          List.find?_cons_of_pos _ (by simp [hpk'])]
      · rw [List.find?_cons_of_neg _ (by simp [hpk'])]
        rw [ih]
        by_cases hk : k' = k
        · rw [if_pos hk, if_pos hk]
        · rw [if_neg hk, if_neg hk, List.find?_cons_of_neg _ (by simp [hpk'])]

theorem alGet_isSome_iff {α : Type} (m : List (String × α)) (k : String) :
    (alGet m k).isSome ↔ k ∈ m.map Prod.fst := by
  unfold alGet
  simp [List.find?_isSome, List.mem_map]

theorem alGet_foldl_alDelete {α : Type} (keys : List String) :
    ∀ (m : List (String × α)) (k : String),
      alGet (keys.foldl alDelete m) k = if k ∈ keys then none else alGet m k := by
  induction keys with
  | nil => intro m k; simp
  | cons key rest ih =>
    intro m k
    rw [List.foldl_cons, ih]
    by_cases hk : k ∈ rest
    · rw [if_pos hk, if_pos (List.mem_cons_of_mem _ hk)]
    · rw [if_neg hk, alGet_alDelete]
      by_cases hkk : k = key
      · rw [if_pos hkk, if_pos (by simp [hkk])]
      · rw [if_neg hkk, if_neg (by simp [hkk, hk])]

theorem alGet_filter_val {α : Type} (q : α → Bool) :
    ∀ (m : List (String × α)) (k : String) (v : α),
      alGet m k = some v → q v = true →
      alGet (m.filter (fun p => q p.2)) k = some v := by
  intro m
  induction m with
  | nil => intro k v h _; simp [alGet] at h
  | cons p rest ih =>
    intro k v h hq
    unfold alGet at h ⊢
    by_cases hp : p.1 = k
    · rw [List.find?_cons_of_pos _ (by simp [hp])] at h
      simp only [Option.map_some', Option.some.injEq] at h
      rw [List.filter_cons_of_pos (by rw [h]; simpa using hq)]
      rw [List.find?_cons_of_pos _ (by simp [hp])]
      simpa using h
    · rw [List.find?_cons_of_neg _ (by simp [hp])] at h
      by_cases hqp : q p.2 = true
      · rw [List.filter_cons_of_pos (by simpa using hqp)]
        rw [List.find?_cons_of_neg _ (by simp [hp])]
        exact ih k v h hq
      · rw [List.filter_cons_of_neg (by simpa using hqp)]
        exact ih k v h hq

theorem alGet_filter_none {α : Type} (q : α → Bool) :
    ∀ (m : List (String × α)) (k : String),
      alGet m k = none → alGet (m.filter (fun p => q p.2)) k = none := by
  intro m
  induction m with
  | nil => intro k _; rfl
  | cons p rest ih =>
    intro k h
    unfold alGet at h ⊢
    by_cases hp : p.1 = k
    · rw [List.find?_cons_of_pos _ (by simp [hp])] at h
      simp at h
    · rw [List.find?_cons_of_neg _ (by simp [hp])] at h
      by_cases hqp : q p.2 = true
      · rw [List.filter_cons_of_pos (by simpa using hqp)]
        rw [List.find?_cons_of_neg _ (by simp [hp])]
        exact ih k h
      · rw [List.filter_cons_of_neg (by simpa using hqp)]
        exact ih k h

theorem storeBatch_spec (f : List Char → List ℚ) :
    ∀ (batch : List (TextChunk × String)) (working : PaperEmbeddings) (dirty : Bool),
      (batch.map (fun p => p.1.id)).Nodup →
      ∃ w', storeBatch working dirty batch (batch.map (fun p => f p.1.text)) =
          (w', dirty || decide (batch ≠ [])) ∧
        w'.endpoint = working.endpoint ∧ w'.model = working.model ∧
        w'.updatedAt = working.updatedAt ∧
        (∀ k, k ∉ batch.map (fun p => p.1.id) →
          alGet w'.vectors k = alGet working.vectors k ∧
          alGet w'.chunkHashes k = alGet working.chunkHashes k) ∧
        (∀ pair ∈ batch, alGet w'.vectors pair.1.id = some (f pair.1.text) ∧
          alGet w'.chunkHashes pair.1.id = some pair.2) := by
  intro batch
  induction batch with
  | nil =>
    intro working dirty _
    exact ⟨working, by simp [storeBatch], rfl, rfl, rfl, fun k _ => ⟨rfl, rfl⟩,
      fun pair h => absurd h (by simp)⟩
  | cons hd rest ih =>
    intro working dirty hnodup
    obtain ⟨chunk, hash⟩ := hd
    simp only [List.map_cons, List.nodup_cons] at hnodup
    obtain ⟨hnotin, hnodup'⟩ := hnodup
    obtain ⟨w', hrec, hep, hmo, hup, hoff, hmem⟩ := ih
      { working with
        chunkHashes := alSet working.chunkHashes chunk.id hash,
        vectors := alSet working.vectors chunk.id (f chunk.text) } true hnodup'
    refine ⟨w', ?_, by rw [hep], by rw [hmo], by rw [hup], ?_, ?_⟩
    · show storeBatch working dirty ((chunk, hash) :: rest)
        (f chunk.text :: rest.map (fun p => f p.1.text)) = _
      rw [storeBatch, hrec]
      simp
    · intro k hk
      simp only [List.map_cons, List.mem_cons, not_or] at hk
      obtain ⟨hk1, hk2⟩ := hoff k hk.2
      rw [hk1, hk2]
      exact ⟨alGet_alSet_ne _ _ _ _ hk.1, alGet_alSet_ne _ _ _ _ hk.1⟩
    · intro pair hpair
      rcases List.mem_cons.1 hpair with heq | hrest
      · subst heq
        obtain ⟨hk1, hk2⟩ := hoff chunk.id hnotin
        rw [hk1, hk2]
        exact ⟨alGet_alSet_self _ _ _, alGet_alSet_self _ _ _⟩
      · exact hmem pair hrest

theorem embedBatches_spec (cfg : EmbeddingConfig)
    (post : List (List Char) → Except String (List (List ℚ)))
    (f : List Char → List ℚ)
    (hpost : ∀ texts, post texts = .ok (texts.map f))
    (hcfg : ¬(cfg.endpoint = "" ∨ cfg.model = "")) :
    ∀ (n : Nat) (missing : List (TextChunk × String)), missing.length ≤ n →
      (missing.map (fun p => p.1.id)).Nodup →
      ∀ (working : PaperEmbeddings) (dirty : Bool), ∃ w',
        embedBatches cfg post missing working dirty =
          .ok (w', dirty || decide (missing ≠ [])) ∧
        w'.endpoint = working.endpoint ∧ w'.model = working.model ∧
        w'.updatedAt = working.updatedAt ∧
        (∀ k, k ∉ missing.map (fun p => p.1.id) →
          alGet w'.vectors k = alGet working.vectors k ∧
          alGet w'.chunkHashes k = alGet working.chunkHashes k) ∧
        (∀ pair ∈ missing, alGet w'.vectors pair.1.id = some (f pair.1.text) ∧
          alGet w'.chunkHashes pair.1.id = some pair.2) := by
  intro n
  induction n with
  | zero =>
    intro missing hlen hnodup working dirty
    have hnil : missing = [] := List.length_eq_zero.1 (Nat.le_zero.1 hlen)
    subst hnil
    exact ⟨working, by simp [embedBatches], rfl, rfl, rfl, fun k _ => ⟨rfl, rfl⟩,
      fun pair h => absurd h (by simp)⟩
  | succ n ih =>
    intro missing hlen hnodup working dirty
    cases missing with
    | nil =>
      exact ⟨working, by simp [embedBatches], rfl, rfl, rfl, fun k _ => ⟨rfl, rfl⟩,
        fun pair h => absurd h (by simp)⟩
    | cons hd tl =>
      have hB : EMBEDDING_BATCH_SIZE = 12 := rfl
      have hreq : requestEmbeddings cfg post
          (((hd :: tl).take EMBEDDING_BATCH_SIZE).map (fun p => p.1.text)) =
          .ok ((((hd :: tl).take EMBEDDING_BATCH_SIZE).map (fun p => p.1.text)).map f) := by
        unfold requestEmbeddings
        rw [if_neg (by simp [hB]), if_neg hcfg, hpost]
        dsimp only
        rw [if_neg (by simp)]
      have hsplit : (((hd :: tl).take EMBEDDING_BATCH_SIZE).map (fun p => p.1.id) ++
          ((hd :: tl).drop EMBEDDING_BATCH_SIZE).map (fun p => p.1.id)).Nodup := by
        rw [← List.map_append, List.take_append_drop]
        exact hnodup
      obtain ⟨hnodupB, hnodupR, hdisj⟩ := List.nodup_append.1 hsplit
      have hvecshape : (((hd :: tl).take EMBEDDING_BATCH_SIZE).map
          (fun p => p.1.text)).map f =
          ((hd :: tl).take EMBEDDING_BATCH_SIZE).map (fun p => f p.1.text) := by
        rw [List.map_map]
        rfl
      obtain ⟨w1, hsb, hep1, hmo1, hup1, hoff1, hmem1⟩ :=
        storeBatch_spec f ((hd :: tl).take EMBEDDING_BATCH_SIZE) working dirty hnodupB
      obtain ⟨w', hrec, hep2, hmo2, hup2, hoff2, hmem2⟩ :=
        ih ((hd :: tl).drop EMBEDDING_BATCH_SIZE)
          (by simp only [List.length_drop, List.length_cons] at hlen ⊢; omega)
          hnodupR w1 (dirty || decide ((hd :: tl).take EMBEDDING_BATCH_SIZE ≠ []))
      have hbne : (hd :: tl).take EMBEDDING_BATCH_SIZE ≠ [] := by simp [hB]
      refine ⟨w', ?_, by rw [hep2, hep1], by rw [hmo2, hmo1], by rw [hup2, hup1],
        ?_, ?_⟩
      · rw [embedBatches, hreq]
        dsimp only
        rw [hvecshape, hsb]
        dsimp only
        rw [hrec]
        simp [hbne]
      · intro k hk
        have hkfull : k ∉ ((hd :: tl).take EMBEDDING_BATCH_SIZE).map (fun p => p.1.id) ∧
            k ∉ ((hd :: tl).drop EMBEDDING_BATCH_SIZE).map (fun p => p.1.id) := by
          constructor <;> intro hmem <;> apply hk
          · rw [show (hd :: tl).map (fun p => p.1.id) =
              ((hd :: tl).take EMBEDDING_BATCH_SIZE).map (fun p => p.1.id) ++
                ((hd :: tl).drop EMBEDDING_BATCH_SIZE).map (fun p => p.1.id) from
              by rw [← List.map_append, List.take_append_drop]]
            exact List.mem_append_left _ hmem
          · rw [show (hd :: tl).map (fun p => p.1.id) =
              ((hd :: tl).take EMBEDDING_BATCH_SIZE).map (fun p => p.1.id) ++
                ((hd :: tl).drop EMBEDDING_BATCH_SIZE).map (fun p => p.1.id) from
              by rw [← List.map_append, List.take_append_drop]]
            exact List.mem_append_right _ hmem
        obtain ⟨h1, h2⟩ := hoff2 k hkfull.2
        obtain ⟨h3, h4⟩ := hoff1 k hkfull.1
        rw [h1, h2, h3, h4]
        exact ⟨rfl, rfl⟩
      · intro pair hpair
        have hpair' : pair ∈ (hd :: tl).take EMBEDDING_BATCH_SIZE ++
            (hd :: tl).drop EMBEDDING_BATCH_SIZE := by
          rw [List.take_append_drop]
          exact hpair
        rcases List.mem_append.1 hpair' with hb | hr
        · have hkid : pair.1.id ∉
              ((hd :: tl).drop EMBEDDING_BATCH_SIZE).map (fun p => p.1.id) :=
            hdisj (List.mem_map_of_mem _ hb)
          obtain ⟨h1, h2⟩ := hoff2 pair.1.id hkid
          obtain ⟨h3, h4⟩ := hmem1 pair hb
          rw [h1, h2]
          exact ⟨h3, h4⟩
        · exact hmem2 pair hr

theorem mem_staleKeysOf {e : PaperEmbeddings} {index : PaperIndex} {k : String} :
    k ∈ staleKeysOf e index ↔
      k ∈ e.vectors.map Prod.fst ∧ k ∉ index.chunks.map (fun c => c.id) := by
  unfold staleKeysOf
  simp [List.mem_filter]

theorem pruneStale_alGet_vectors (e : PaperEmbeddings) (index : PaperIndex)
    (k : String) :
    alGet (pruneStale e index).vectors k =
      if k ∈ staleKeysOf e index then none else alGet e.vectors k := by
  show alGet ((staleKeysOf e index).foldl alDelete e.vectors) k = _
  exact alGet_foldl_alDelete _ _ _

theorem pruneStale_alGet_hashes (e : PaperEmbeddings) (index : PaperIndex)
    (k : String) :
    alGet (pruneStale e index).chunkHashes k =
      if k ∈ staleKeysOf e index then none else alGet e.chunkHashes k := by
  show alGet ((staleKeysOf e index).foldl alDelete e.chunkHashes) k = _
  exact alGet_foldl_alDelete _ _ _

theorem pruneStale_in_index (e : PaperEmbeddings) (index : PaperIndex)
    {c : TextChunk} (hc : c ∈ index.chunks) :
    alGet (pruneStale e index).vectors c.id = alGet e.vectors c.id ∧
    alGet (pruneStale e index).chunkHashes c.id = alGet e.chunkHashes c.id := by
  have hid : c.id ∈ index.chunks.map (fun ch => ch.id) := List.mem_map_of_mem _ hc
  have hns : c.id ∉ staleKeysOf e index := fun h => (mem_staleKeysOf.1 h).2 hid
  rw [pruneStale_alGet_vectors, pruneStale_alGet_hashes, if_neg hns, if_neg hns]
  exact ⟨rfl, rfl⟩

theorem pruneStale_off_index (e : PaperEmbeddings) (index : PaperIndex)
    {k : String}
    (hsync : (alGet e.chunkHashes k).isSome → (alGet e.vectors k).isSome)
    (hk : k ∉ index.chunks.map (fun c => c.id)) :
    alGet (pruneStale e index).vectors k = none ∧
    alGet (pruneStale e index).chunkHashes k = none := by
  rw [pruneStale_alGet_vectors, pruneStale_alGet_hashes]
  by_cases hks : k ∈ staleKeysOf e index
  · rw [if_pos hks, if_pos hks]; exact ⟨rfl, rfl⟩
  · rw [if_neg hks, if_neg hks]
    have hkv : k ∉ e.vectors.map Prod.fst := fun hm => hks (mem_staleKeysOf.2 ⟨hm, hk⟩)
    have hv : alGet e.vectors k = none := by
      by_contra hne
      exact hkv ((alGet_isSome_iff _ _).1 (Option.isSome_iff_ne_none.2 hne))
    refine ⟨hv, ?_⟩
    by_contra hne
    have hvs := hsync (Option.isSome_iff_ne_none.2 hne)
    rw [hv] at hvs
    simp at hvs

theorem missingOf_pruneStale (e : PaperEmbeddings) (index : PaperIndex) :
    missingOf (pruneStale e index) index =
      (index.chunks.map (fun chunk => (chunk, hashText chunk.text))).filter
        (fun pair => needsReembed e pair.1) := by
  unfold missingOf
  apply List.filter_congr
  intro pair hpair
  obtain ⟨c, hc, rfl⟩ := List.mem_map.1 hpair
  obtain ⟨hv, hh⟩ := pruneStale_in_index e index hc
  show (decide (alGet (pruneStale e index).chunkHashes c.id ≠
      some (hashText c.text)) || _) = needsReembed e c
  unfold needsReembed
  rw [hv, hh]

theorem missingOf_ids_nodup (working : PaperEmbeddings) (index : PaperIndex)
    (hnodup : (index.chunks.map (fun c => c.id)).Nodup) :
    ((missingOf working index).map (fun p => p.1.id)).Nodup := by
  have hsub : List.Sublist (missingOf working index)
      (index.chunks.map (fun chunk => (chunk, hashText chunk.text))) :=
    List.filter_sublist _
  have hmap : (index.chunks.map (fun chunk => (chunk, hashText chunk.text))).map
      (fun p => p.1.id) = index.chunks.map (fun c => c.id) := by
    rw [List.map_map]; rfl
  exact (hmap ▸ hsub.map (fun p : TextChunk × String => p.1.id)).nodup hnodup

theorem missingOf_ids_subset (working : PaperEmbeddings) (index : PaperIndex)
    {k : String}
    (hk : k ∈ (missingOf working index).map (fun p => p.1.id)) :
    k ∈ index.chunks.map (fun c => c.id) := by
  obtain ⟨p, hp, rfl⟩ := List.mem_map.1 hk
  have hp2 : p ∈ index.chunks.map (fun chunk => (chunk, hashText chunk.text)) :=
    List.mem_of_mem_filter hp
  obtain ⟨c, hc, rfl⟩ := List.mem_map.1 hp2
  exact List.mem_map_of_mem _ hc

theorem missingOf_ne_nil_iff (e : PaperEmbeddings) (index : PaperIndex) :
    missingOf (pruneStale e index) index ≠ [] ↔
      ∃ c ∈ index.chunks, needsReembed e c = true := by
  rw [missingOf_pruneStale]
  constructor
  · intro hne
    obtain ⟨p, hp⟩ := List.exists_mem_of_ne_nil _ hne
    obtain ⟨hp1, hp2⟩ := List.mem_filter.1 hp
    obtain ⟨c, hc, rfl⟩ := List.mem_map.1 hp1
    exact ⟨c, hc, hp2⟩
  · rintro ⟨c, hc, hcr⟩
    exact List.ne_nil_of_mem
      (List.mem_filter.2 ⟨List.mem_map_of_mem _ hc, by simpa using hcr⟩)

theorem effectiveEntry_config (cfg : EmbeddingConfig) (now : String) :
    ∀ entry, (effectiveEntry cfg now entry).endpoint = cfg.endpoint ∧
      (effectiveEntry cfg now entry).model = cfg.model
  | none => ⟨rfl, rfl⟩
  | some e => by
    unfold effectiveEntry
    dsimp only
    by_cases h : e.endpoint = cfg.endpoint ∧ e.model = cfg.model
    · rw [if_pos h]; exact ⟨h.1, h.2⟩
    · rw [if_neg h]; exact ⟨rfl, rfl⟩

theorem effectiveEntry_sync (cfg : EmbeddingConfig) (now : String)
    (entry : Option PaperEmbeddings)
    (hsync : ∀ e, entry = some e → ∀ k, (alGet e.chunkHashes k).isSome →
      (alGet e.vectors k).isSome) :
    ∀ k, (alGet (effectiveEntry cfg now entry).chunkHashes k).isSome →
      (alGet (effectiveEntry cfg now entry).vectors k).isSome := by
  cases entry with
  | none => intro k h; simp [effectiveEntry, alGet] at h
  | some e =>
    intro k h
    unfold effectiveEntry at h ⊢
    dsimp only at h ⊢
    by_cases hm : e.endpoint = cfg.endpoint ∧ e.model = cfg.model
    · rw [if_pos hm] at h ⊢
      exact hsync e rfl k h
    · rw [if_neg hm] at h
      simp [alGet] at h

theorem effectiveEntry_of_reset (cfg : EmbeddingConfig) (now : String)
    (entry : Option PaperEmbeddings) (h : resetOf cfg entry = true) :
    effectiveEntry cfg now entry = ⟨cfg.endpoint, cfg.model, [], [], now⟩ := by
  cases entry with
  | none => rfl
  | some e =>
    unfold resetOf at h
    unfold effectiveEntry
    dsimp only at h ⊢
    rw [if_neg (of_decide_eq_true h)]

theorem needsReembed_empty (cfg : EmbeddingConfig) (now : String) (c : TextChunk) :
    needsReembed ⟨cfg.endpoint, cfg.model, [], [], now⟩ c = true := by
  simp [needsReembed, alGet]

theorem refreshEmbeddings_spec
    (cfg : EmbeddingConfig)
    (post : List (List Char) → Except String (List (List ℚ)))
    (f : List Char → List ℚ) (now paperID : String)
    (index : PaperIndex) (st : AgentState) (eff : PaperEmbeddings) (reset : Bool)
    (hpost : ∀ texts, post texts = .ok (texts.map f))
    (hcfg : ¬(cfg.endpoint = "" ∨ cfg.model = ""))
    (hnodup : (index.chunks.map (fun c => c.id)).Nodup)
    (hsync : ∀ k, (alGet eff.chunkHashes k).isSome → (alGet eff.vectors k).isSome) :
    ∃ vecs st' w2,
      refreshEmbeddings cfg post now paperID index st eff reset = .ok (vecs, st') ∧
      vecs = w2.vectors.filter (fun p => p.2 ≠ []) ∧
      w2.endpoint = eff.endpoint ∧ w2.model = eff.model ∧
      (∀ k, k ∉ index.chunks.map (fun c => c.id) →
        alGet w2.vectors k = none ∧ alGet w2.chunkHashes k = none) ∧
      (∀ c ∈ index.chunks,
        (needsReembed eff c = true →
          alGet w2.vectors c.id = some (f c.text) ∧
          alGet w2.chunkHashes c.id = some (hashText c.text)) ∧
        (needsReembed eff c = false →
          alGet w2.vectors c.id = alGet eff.vectors c.id ∧
          alGet w2.chunkHashes c.id = alGet eff.chunkHashes c.id)) ∧
      ((reset = true ∨ staleKeysOf eff index ≠ [] ∨
          ∃ c ∈ index.chunks, needsReembed eff c = true) →
        w2.updatedAt = now ∧
        st'.store = { st.store with
          embeddings := alSet st.store.embeddings paperID w2 } ∧
        st'.diskWrites = st.diskWrites ++ [st'.store]) ∧
      ((reset = false ∧ staleKeysOf eff index = [] ∧
          ∀ c ∈ index.chunks, needsReembed eff c = false) →
        st' = st ∧ w2 = eff) := by
  by_cases hmiss : missingOf (pruneStale eff index) index = []
  · -- nothing to re-embed
    have hnone : ¬∃ c ∈ index.chunks, needsReembed eff c = true :=
      fun h => ((missingOf_ne_nil_iff eff index).2 h) hmiss
    have hrun0 : embedBatches cfg post (missingOf (pruneStale eff index) index)
        (pruneStale eff index) (reset || decide (staleKeysOf eff index ≠ [])) =
        .ok (pruneStale eff index, reset || decide (staleKeysOf eff index ≠ [])) := by
      rw [hmiss]
      simp [embedBatches]
    by_cases hd0 : (reset || decide (staleKeysOf eff index ≠ [])) = true
    · -- stale keys or reset: persist pruned cache
      refine ⟨({ pruneStale eff index with updatedAt := now } :
          PaperEmbeddings).vectors.filter (fun p => p.2 ≠ []),
        persistStoreS { st.store with
          embeddings := alSet st.store.embeddings paperID
            { pruneStale eff index with updatedAt := now } } st,
        { pruneStale eff index with updatedAt := now }, ?_, rfl,
        rfl, rfl, ?_, ?_, ?_, ?_⟩
      · unfold refreshEmbeddings
        dsimp only
        rw [hrun0]
        dsimp only
        rw [hd0, if_pos rfl]
      · intro k hk
        exact pruneStale_off_index eff index (hsync k) hk
      · intro c hc
        refine ⟨fun hr => absurd ⟨c, hc, hr⟩ hnone, fun _ => ?_⟩
        exact pruneStale_in_index eff index hc
      · intro _
        exact ⟨rfl, rfl, rfl⟩
      · rintro ⟨hr, hs, -⟩
        rw [hr, hs] at hd0
        simp at hd0
    · -- no change at all
      have hd0' : (reset || decide (staleKeysOf eff index ≠ [])) = false := by
        simpa using hd0
      obtain ⟨hr, hsd⟩ := Bool.or_eq_false_iff.1 hd0'
      have hs : staleKeysOf eff index = [] := by
        by_contra hne
        rw [decide_eq_true hne] at hsd
        exact Bool.false_ne_true hsd.symm
      have hprune : pruneStale eff index = eff := by
        unfold pruneStale
        rw [hs]
        rfl
      refine ⟨eff.vectors.filter (fun p => p.2 ≠ []), st, eff, ?_, rfl, rfl, rfl,
        ?_, ?_, ?_, fun _ => ⟨rfl, rfl⟩⟩
      · unfold refreshEmbeddings
        dsimp only
        rw [hrun0]
        dsimp only
        rw [hd0', if_neg (by simp), hprune]
      · intro k hk
        have h2 := pruneStale_off_index eff index (hsync k) hk
        rw [hprune] at h2
        exact h2
      · intro c hc
        exact ⟨fun hr => absurd ⟨c, hc, hr⟩ hnone, fun _ => ⟨rfl, rfl⟩⟩
      · rintro (hr' | hs' | hex)
        · rw [hr] at hr'; exact absurd hr' Bool.false_ne_true
        · exact absurd hs hs'
        · exact absurd hex hnone
  · -- some chunks must be re-embedded: embed and persist
    obtain ⟨w', hrun, hep, hmo, _, hoff, hmem⟩ :=
      embedBatches_spec cfg post f hpost hcfg
        (missingOf (pruneStale eff index) index).length
        (missingOf (pruneStale eff index) index) le_rfl
        (missingOf_ids_nodup _ _ hnodup) (pruneStale eff index)
        (reset || decide (staleKeysOf eff index ≠ []))
    have hd : ((reset || decide (staleKeysOf eff index ≠ [])) ||
        decide (missingOf (pruneStale eff index) index ≠ [])) = true := by
      rw [decide_eq_true hmiss, Bool.or_true]
    refine ⟨({ w' with updatedAt := now } : PaperEmbeddings).vectors.filter
        (fun p => p.2 ≠ []),
      persistStoreS { st.store with
        embeddings := alSet st.store.embeddings paperID
          { w' with updatedAt := now } } st,
      { w' with updatedAt := now }, ?_, rfl,
      by rw [show ({ w' with updatedAt := now } : PaperEmbeddings).endpoint =
        w'.endpoint from rfl, hep]; rfl,
      by rw [show ({ w' with updatedAt := now } : PaperEmbeddings).model =
        w'.model from rfl, hmo]; rfl, ?_, ?_, ?_, ?_⟩
    · unfold refreshEmbeddings
      dsimp only
      rw [hrun]
      dsimp only
      rw [hd, if_pos rfl]
    · intro k hk
      have hkm : k ∉ (missingOf (pruneStale eff index) index).map (fun p => p.1.id) :=
        fun hm => hk (missingOf_ids_subset _ _ hm)
      obtain ⟨h1, h2⟩ := hoff k hkm
      have h3 := pruneStale_off_index eff index (hsync k) hk
      exact ⟨h1.trans h3.1, h2.trans h3.2⟩
    · intro c hc
      constructor
      · intro hr
        have hpm : (c, hashText c.text) ∈ missingOf (pruneStale eff index) index := by
          rw [missingOf_pruneStale]
          exact List.mem_filter.2 ⟨List.mem_map_of_mem _ hc, by simpa using hr⟩
        exact hmem (c, hashText c.text) hpm
      · intro hr
        have hcm : c.id ∉ (missingOf (pruneStale eff index) index).map
            (fun p => p.1.id) := by
          intro hm
          obtain ⟨p, hp, hpid⟩ := List.mem_map.1 hm
          have hp2 : p ∈ (index.chunks.map
              (fun chunk => (chunk, hashText chunk.text))).filter
              (fun pair => needsReembed eff pair.1) := by
            rw [← missingOf_pruneStale]; exact hp
          obtain ⟨hp3, hp4⟩ := List.mem_filter.1 hp2
          obtain ⟨c', hc', rfl⟩ := List.mem_map.1 hp3
          have hcc : c' = c :=
            List.inj_on_of_nodup_map hnodup hc' hc hpid
          rw [hcc] at hp4
          rw [hr] at hp4
          exact Bool.false_ne_true hp4
        obtain ⟨h1, h2⟩ := hoff c.id hcm
        obtain ⟨h3, h4⟩ := pruneStale_in_index eff index hc
        exact ⟨h1.trans h3, h2.trans h4⟩
    · intro _
      exact ⟨rfl, rfl, rfl⟩
    · rintro ⟨-, -, hall⟩
      obtain ⟨c, hc, hr⟩ := (missingOf_ne_nil_iff eff index).1 hmiss
      rw [hall c hc] at hr
      exact absurd hr Bool.false_ne_true

/-- C5: `getOrCreateChunkEmbeddings` maintains the per-paper embedding cache:
a stored entry whose (endpoint, model) differs from the current configuration
(or an absent entry) is discarded entirely — every chunk of the index then
satisfies the re-embedding criterion against the fresh empty cache; vectors
and hashes for chunk IDs absent from the current index are removed; a chunk
is re-embedded (receiving the freshly requested vector and the recomputed
hash) exactly when its recomputed content hash differs from the cached one or
the cached vector is missing or empty, and its cached vector and hash are
kept unchanged otherwise; and the store is persisted with one write and
`updatedAt` refreshed exactly when some change occurred (reset, stale keys,
or at least one re-embedded chunk), the state being returned untouched
otherwise.  Hypotheses: the embedding endpoint responds with one vector per
text (`hpost`), the configuration is non-empty (`hcfg`), chunk IDs in the
index are distinct (`hnodup`), and the stored entry never holds a hash
without a vector for the same key (`hsync`, an invariant the update path
maintains since vectors and hashes are always written together). -/
theorem getOrCreateChunkEmbeddings_spec
    (cfg : EmbeddingConfig)
    (post : List (List Char) → Except String (List (List ℚ)))
    (f : List Char → List ℚ) (now paperID : String)
    (index : PaperIndex) (st : AgentState)
    (hpost : ∀ texts, post texts = .ok (texts.map f))
    (hcfg : ¬(cfg.endpoint = "" ∨ cfg.model = ""))
    (hnodup : (index.chunks.map (fun c => c.id)).Nodup)
    (hsync : ∀ e, alGet st.store.embeddings paperID = some e →
      ∀ k, (alGet e.chunkHashes k).isSome → (alGet e.vectors k).isSome) :
    ∃ vecs st' w2,
      getOrCreateChunkEmbeddings cfg post now paperID index st = .ok (vecs, st') ∧
      vecs = w2.vectors.filter (fun p => p.2 ≠ []) ∧
      w2.endpoint = cfg.endpoint ∧ w2.model = cfg.model ∧
      (resetOf cfg (alGet st.store.embeddings paperID) = true →
        ∀ c ∈ index.chunks,
          needsReembed (effectiveEntry cfg now (alGet st.store.embeddings paperID)) c
            = true) ∧
      (∀ k, k ∉ index.chunks.map (fun c => c.id) →
        alGet w2.vectors k = none ∧ alGet w2.chunkHashes k = none) ∧
      (∀ c ∈ index.chunks,
        (needsReembed (effectiveEntry cfg now (alGet st.store.embeddings paperID)) c
            = true →
          alGet w2.vectors c.id = some (f c.text) ∧
          alGet w2.chunkHashes c.id = some (hashText c.text)) ∧
        (needsReembed (effectiveEntry cfg now (alGet st.store.embeddings paperID)) c
            = false →
          alGet w2.vectors c.id =
            alGet (effectiveEntry cfg now
              (alGet st.store.embeddings paperID)).vectors c.id ∧
          alGet w2.chunkHashes c.id =
            alGet (effectiveEntry cfg now
              (alGet st.store.embeddings paperID)).chunkHashes c.id)) ∧
      ((resetOf cfg (alGet st.store.embeddings paperID) = true ∨
          staleKeysOf (effectiveEntry cfg now
            (alGet st.store.embeddings paperID)) index ≠ [] ∨
          ∃ c ∈ index.chunks,
            needsReembed (effectiveEntry cfg now
              (alGet st.store.embeddings paperID)) c = true) →
        w2.updatedAt = now ∧
        st'.store = { st.store with
          embeddings := alSet st.store.embeddings paperID w2 } ∧
        st'.diskWrites = st.diskWrites ++ [st'.store]) ∧
      ((resetOf cfg (alGet st.store.embeddings paperID) = false ∧
          staleKeysOf (effectiveEntry cfg now
            (alGet st.store.embeddings paperID)) index = [] ∧
          ∀ c ∈ index.chunks,
            needsReembed (effectiveEntry cfg now
              (alGet st.store.embeddings paperID)) c = false) →
        st' = st ∧
        w2 = effectiveEntry cfg now (alGet st.store.embeddings paperID)) := by
  obtain ⟨vecs, st', w2, hres, hvecs, hep, hmo, hoff, hchunk, hchg, hnochg⟩ :=
    refreshEmbeddings_spec cfg post f now paperID index st
      (effectiveEntry cfg now (alGet st.store.embeddings paperID))
      (resetOf cfg (alGet st.store.embeddings paperID))
      hpost hcfg hnodup
      (effectiveEntry_sync cfg now _ hsync)
  obtain ⟨hce, hcm⟩ := effectiveEntry_config cfg now (alGet st.store.embeddings paperID)
  refine ⟨vecs, st', w2, hres, hvecs, hep.trans hce, hmo.trans hcm, ?_, hoff, hchunk,
    hchg, hnochg⟩
  intro hr c _
  rw [effectiveEntry_of_reset cfg now _ hr]
  exact needsReembed_empty cfg now c

def c5cfg : EmbeddingConfig := ⟨"https://emb.local", "", "m1"⟩

def c5post : List (List Char) → Except String (List (List ℚ)) :=
  fun texts => .ok (texts.map (fun _ => [1]))

def c5index : PaperIndex :=
  ⟨"h1", "T", "pdf", [⟨"chunk-1", "alpha".toList, 0, 5⟩], "t0"⟩

def c5state0 : AgentState := ⟨emptyPaperStore, [], []⟩

theorem getOrCreateChunkEmbeddings_spec_witness :
    ∃ vecs st',
      getOrCreateChunkEmbeddings c5cfg c5post "t1" "p1" c5index c5state0 =
        .ok (vecs, st') := by
  obtain ⟨vecs, st', w2, hres, -, -, -, -, -, -, -, -⟩ :=
    getOrCreateChunkEmbeddings_spec c5cfg c5post (fun _ => [1]) "t1" "p1"
      c5index c5state0
      (fun _ => rfl) (by decide) (by decide)
      (fun e he => by simp [c5state0, emptyPaperStore, alGet] at he)
  exact ⟨vecs, st', hres⟩

/-! ## Summary progress reporting (source: `summarizePaper`,
`runBookmarkContextSummaryPipeline`, `summarizePaperSinglePass`,
`reportSummaryProgress`)

A progress report is the pair `(percent, stage)` passed to the handler.
`summarizePaperTrace` collects the reports of one `summarizePaper` call in
order.  Oracles: `resolveR` is `resolvePaper` (its value is whether
`resolved.attachmentItem` is set), `ensureR` is `ensurePaperIndex`,
`attachID` is `Number(attachmentItem.id || 0)`, `extractR` is
`extractSectionContextsFromAttachment` (its value is the bookmark titles),
and `llm1`/`llm2` are the first and second `requestLLM` calls of the
single-pass fallback.  Per-section draft failures are caught and logged in
the source and do not affect the reports; `composeSectionedSummary` is pure
and always returns a non-empty `TL;DR`-prefixed text, so a completed
bookmark pipeline never falls through to the fallback. -/

abbrev Report := ℚ × String

/-- `reportSummaryProgress`: the percent is clamped to [0, 100]. -/
def clampPercent (p : ℚ) : ℚ := max 0 (min 100 p)

def report (p : ℚ) (stage : String) : Report := (clampPercent p, stage)

/-- The percent of loop step `i+1` out of `totalSteps = max 1 (n + 1)`
sections (`phaseStart + (phaseSpan * step) / totalSteps`). -/
def stepPercent (n i : Nat) : ℚ :=
  24 + (72 * ((i : ℚ) + 1)) / max 1 ((n : ℚ) + 1)

/-- The per-section reports of the bookmark pipeline loop, in order. -/
def sectionReports (titles : List String) : List Report :=
  (List.range titles.length).map (fun i =>
    report (stepPercent titles.length i) ("소목차 요약: " ++ titles.getD i ""))

/-- Reports of `runBookmarkContextSummaryPipeline` and whether it completes
(`false` means it threw and `summarizePaper` falls back).  The title filter
is `prepareBookmarkContextSummaryPlan`'s selection of non-blank titles. -/
def pipelineTrace (attachID : Nat) (extractR : Except String (List String)) :
    List Report × Bool :=
  if attachID = 0 then ([], false)
  else
    match extractR with
    | .error _ => ([report 12 "PDF 목차 컨텍스트 추출"], false)
    | .ok titles0 =>
      let selected := titles0.filter (fun t => decide (trimChars t.toList ≠ []))
      if selected = [] then ([report 12 "PDF 목차 컨텍스트 추출"], false)
      else
        ([report 12 "PDF 목차 컨텍스트 추출"] ++ sectionReports selected ++
          [report (stepPercent selected.length selected.length) "최종 요약 편집"],
         true)

/-- The bookmark pipeline is attempted only when an attachment item exists. -/
def pipelineResult (hasAttach : Bool) (attachID : Nat)
    (extractR : Except String (List String)) : List Report × Bool :=
  if hasAttach then pipelineTrace attachID extractR else ([], false)

/-- Reports of one `summarizePaperSinglePass` call preceded by the caller's
45% fallback announcement. -/
def fallbackReports : List Report :=
  [report 45 "폴백 요약 실행", report 55 "단일 패스 컨텍스트 구성",
   report 75 "단일 패스 요약 생성"]

/-- Reports after the pipeline attempt: completion only, or the fallback in
the `try` body (`llm1`), re-run once by the outer `catch` (`llm2`) if the
first LLM call throws; a second throw propagates out of `summarizePaper`. -/
def postTrace (psucc : Bool) (llm1 llm2 : Except String (List Char)) :
    List Report :=
  if psucc then [report 100 "요약 완료"]
  else
    match llm1 with
    | .ok _ => fallbackReports ++ [report 100 "요약 완료"]
    | .error _ =>
      match llm2 with
      | .ok _ => fallbackReports ++ fallbackReports ++ [report 100 "요약 완료"]
      | .error _ => fallbackReports ++ fallbackReports

structure SummaryOracles where
  resolveR : Except String Bool
  ensureR : Except String Unit
  attachID : Nat
  extractR : Except String (List String)
  llm1 : Except String (List Char)
  llm2 : Except String (List Char)

/-- Source: `summarizePaper` — the ordered list of progress reports it
delivers to the handler. -/
def summarizePaperTrace (o : SummaryOracles) : List Report :=
  match o.resolveR with
  | .error _ => [report 3 "논문 로딩"]
  | .ok hasAttach =>
    match o.ensureR with
    | .error _ => [report 3 "논문 로딩", report 8 "텍스트 인덱스 준비"]
    | .ok _ =>
      [report 3 "논문 로딩", report 8 "텍스트 인덱스 준비"] ++
      (pipelineResult hasAttach o.attachID o.extractR).1 ++
      postTrace (pipelineResult hasAttach o.attachID o.extractR).2 o.llm1 o.llm2

/-- An attachment item whose numeric id is 0 (so the pipeline throws before
its first report), no bookmark titles, an LLM outage on the first fallback
call and a recovery on the second. -/
def c8bad : SummaryOracles :=
  ⟨.ok true, .ok (), 0, .ok [], .error "llm unavailable", .ok "done".toList⟩

theorem clampPercent_mono {p q : ℚ} (h : p ≤ q) :
    clampPercent p ≤ clampPercent q :=
  max_le_max le_rfl (min_le_min le_rfl h)

theorem clampPercent_le_100 (p : ℚ) : clampPercent p ≤ 100 :=
  max_le (by norm_num) (min_le_left _ _)

theorem clampPercent_eq {p : ℚ} (h0 : 0 ≤ p) (h1 : p ≤ 100) :
    clampPercent p = p := by
  unfold clampPercent
  rw [min_eq_right h1, max_eq_right h0]

theorem stepPercent_mono (n i : Nat) : stepPercent n i ≤ stepPercent n (i + 1) := by
  unfold stepPercent
  have hT : (0 : ℚ) < max 1 ((n : ℚ) + 1) :=
    lt_of_lt_of_le one_pos (le_max_left _ _)
  gcongr
  push_cast
  linarith

theorem stepPercent_ge_12 (n i : Nat) : (12 : ℚ) ≤ stepPercent n i := by
  unfold stepPercent
  have hT : (0 : ℚ) < max 1 ((n : ℚ) + 1) :=
    lt_of_lt_of_le one_pos (le_max_left _ _)
  have h1 : (0 : ℚ) ≤ 72 * ((i : ℚ) + 1) / max 1 ((n : ℚ) + 1) := by
    apply div_nonneg _ (le_of_lt hT)
    positivity
  linarith

theorem stepPercent_le_100 {n i : Nat} (h : i ≤ n) : stepPercent n i ≤ 100 := by
  unfold stepPercent
  have hn0 : (0 : ℚ) ≤ (n : ℚ) := Nat.cast_nonneg n
  have hn : (1 : ℚ) ≤ (n : ℚ) + 1 := by linarith
  rw [max_eq_right hn]
  have hpos : (0 : ℚ) < (n : ℚ) + 1 := by linarith
  have h1 : (72 : ℚ) * ((i : ℚ) + 1) / ((n : ℚ) + 1) ≤ 72 := by
    rw [div_le_iff₀ hpos]
    have hi : (i : ℚ) ≤ (n : ℚ) := Nat.cast_le.2 h
    nlinarith
  linarith

theorem append_ne_empty_left (s t : String) (hs : s.data ≠ []) : s ++ t ≠ "" := by
  intro h
  apply hs
  have hd := congrArg String.data h
  rw [String.data_append] at hd
  exact (List.append_eq_nil.1 hd).1

theorem sectionBlock_eq (titles : List String) :
    sectionReports titles ++
      [report (stepPercent titles.length titles.length) "최종 요약 편집"] =
      (List.range (titles.length + 1)).map (fun i =>
        report (stepPercent titles.length i)
          (if i < titles.length then "소목차 요약: " ++ titles.getD i ""
           else "최종 요약 편집")) := by
  rw [List.range_succ, List.map_append]
  congr 1
  · unfold sectionReports
    apply List.map_congr_left
    intro i hi
    rw [if_pos (List.mem_range.1 hi)]
  · simp

theorem chain_sectionBlock (titles : List String) :
    List.Chain' (fun a b : Report => a.1 ≤ b.1 ∨ b.1 = 45)
      (sectionReports titles ++
        [report (stepPercent titles.length titles.length) "최종 요약 편집"]) := by
  rw [sectionBlock_eq, List.chain'_map, List.chain'_range_succ]
  intro m _
  exact Or.inl (clampPercent_mono (stepPercent_mono _ m))

theorem sectionBlock_mem (titles : List String) :
    ∀ y ∈ sectionReports titles ++
      [report (stepPercent titles.length titles.length) "최종 요약 편집"],
      y.2 ≠ "" ∧ clampPercent 12 ≤ y.1 ∧ y.1 ≤ 100 := by
  intro y hy
  rw [sectionBlock_eq] at hy
  obtain ⟨i, hi, rfl⟩ := List.mem_map.1 hy
  refine ⟨?_, clampPercent_mono (stepPercent_ge_12 _ _), clampPercent_le_100 _⟩
  show (if i < titles.length then "소목차 요약: " ++ titles.getD i ""
      else "최종 요약 편집") ≠ ""
  by_cases hlt : i < titles.length
  · rw [if_pos hlt]
    exact append_ne_empty_left _ _ (by decide)
  · rw [if_neg hlt]
    decide

theorem pipelineTrace_chain (attachID : Nat)
    (extractR : Except String (List String)) :
    List.Chain' (fun a b : Report => a.1 ≤ b.1 ∨ b.1 = 45)
      (pipelineTrace attachID extractR).1 := by
  unfold pipelineTrace
  by_cases h0 : attachID = 0
  · rw [if_pos h0]; exact List.chain'_nil
  · rw [if_neg h0]
    cases extractR with
    | error e => exact List.chain'_singleton _
    | ok titles0 =>
      dsimp only
      by_cases hsel : titles0.filter (fun t => decide (trimChars t.toList ≠ [])) = []
      · rw [if_pos hsel]; exact List.chain'_singleton _
      · rw [if_neg hsel]
        show List.Chain' _ (report 12 "PDF 목차 컨텍스트 추출" ::
          (sectionReports _ ++ [report _ "최종 요약 편집"]))
        refine List.chain'_cons'.2 ⟨?_, chain_sectionBlock _⟩
        intro b hb
        have hbm := List.mem_of_mem_head? hb
        have h12 := (sectionBlock_mem _ b hbm).2.1
        exact Or.inl (le_trans (le_of_eq rfl) h12)

theorem pipelineTrace_mem (attachID : Nat)
    (extractR : Except String (List String)) :
    ∀ y ∈ (pipelineTrace attachID extractR).1,
      y.2 ≠ "" ∧ clampPercent 8 ≤ y.1 ∧ y.1 ≤ 100 := by
  have h12 : (report 12 "PDF 목차 컨텍스트 추출").2 ≠ "" ∧
      clampPercent 8 ≤ (report 12 "PDF 목차 컨텍스트 추출").1 ∧
      (report 12 "PDF 목차 컨텍스트 추출").1 ≤ 100 :=
    ⟨by decide, clampPercent_mono (by norm_num), clampPercent_le_100 _⟩
  intro y hy
  unfold pipelineTrace at hy
  by_cases h0 : attachID = 0
  · rw [if_pos h0] at hy; simp at hy
  · rw [if_neg h0] at hy
    cases extractR with
    | error e =>
      simp only [List.mem_singleton] at hy
      rw [hy]; exact h12
    | ok titles0 =>
      dsimp only at hy
      by_cases hsel : titles0.filter (fun t => decide (trimChars t.toList ≠ [])) = []
      · rw [if_pos hsel] at hy
        simp only [List.mem_singleton] at hy
        rw [hy]; exact h12
      · rw [if_neg hsel] at hy
        have hy2 : y ∈ report 12 "PDF 목차 컨텍스트 추출" ::
            (sectionReports (titles0.filter (fun t => decide (trimChars t.toList ≠ []))) ++
              [report (stepPercent
                (titles0.filter (fun t => decide (trimChars t.toList ≠ []))).length
                (titles0.filter (fun t => decide (trimChars t.toList ≠ []))).length)
                "최종 요약 편집"]) := hy
        rcases List.mem_cons.1 hy2 with heq | hyb
        · rw [heq]; exact h12
        · obtain ⟨hne, h12b, h100⟩ := sectionBlock_mem _ y hyb
          exact ⟨hne, le_trans (clampPercent_mono (by norm_num)) h12b, h100⟩

theorem pipelineResult_chain (hasAttach : Bool) (attachID : Nat)
    (extractR : Except String (List String)) :
    List.Chain' (fun a b : Report => a.1 ≤ b.1 ∨ b.1 = 45)
      (pipelineResult hasAttach attachID extractR).1 := by
  unfold pipelineResult
  by_cases h : hasAttach = true
  · rw [if_pos h]; exact pipelineTrace_chain _ _
  · rw [if_neg h]; exact List.chain'_nil

theorem pipelineResult_mem (hasAttach : Bool) (attachID : Nat)
    (extractR : Except String (List String)) :
    ∀ y ∈ (pipelineResult hasAttach attachID extractR).1,
      y.2 ≠ "" ∧ clampPercent 8 ≤ y.1 ∧ y.1 ≤ 100 := by
  unfold pipelineResult
  by_cases h : hasAttach = true
  · rw [if_pos h]; exact pipelineTrace_mem _ _
  · rw [if_neg h]; intro y hy; simp at hy

theorem postTrace_chain (psucc : Bool) (l1 l2 : Except String (List Char)) :
    List.Chain' (fun a b : Report => a.1 ≤ b.1 ∨ b.1 = 45)
      (postTrace psucc l1 l2) := by
  unfold postTrace
  by_cases hp : psucc = true
  · rw [if_pos hp]; exact List.chain'_singleton _
  · rw [if_neg hp]
    cases l1 with
    | ok a =>
      simp only [fallbackReports, List.cons_append, List.nil_append,
        List.chain'_cons, List.chain'_singleton, and_true]
      exact ⟨Or.inl (by decide), Or.inl (by decide), Or.inl (by decide)⟩
    | error e =>
      cases l2 with
      | ok a =>
        simp only [fallbackReports, List.cons_append, List.nil_append,
          List.chain'_cons, List.chain'_singleton, and_true]
        exact ⟨Or.inl (by decide), Or.inl (by decide), Or.inr (by decide),
          Or.inl (by decide), Or.inl (by decide), Or.inl (by decide)⟩
      | error e2 =>
        simp only [fallbackReports, List.cons_append, List.nil_append,
          List.chain'_cons, List.chain'_singleton, and_true]
        exact ⟨Or.inl (by decide), Or.inl (by decide), Or.inr (by decide),
          Or.inl (by decide), Or.inl (by decide)⟩

theorem postTrace_mem (psucc : Bool) (l1 l2 : Except String (List Char)) :
    ∀ y ∈ postTrace psucc l1 l2, y.2 ≠ "" ∧ clampPercent 8 ≤ y.1 := by
  unfold postTrace
  intro y hy
  by_cases hp : psucc = true
  · rw [if_pos hp] at hy
    simp only [List.mem_singleton] at hy
    rw [hy]; exact ⟨by decide, by decide⟩
  · rw [if_neg hp] at hy
    cases l1 with
    | ok a =>
      simp only [fallbackReports, List.cons_append, List.nil_append,
        List.mem_cons, List.not_mem_nil, or_false] at hy
      rcases hy with rfl | rfl | rfl | rfl <;> exact ⟨by decide, by decide⟩
    | error e =>
      cases l2 with
      | ok a =>
        simp only [fallbackReports, List.cons_append, List.nil_append,
          List.mem_cons, List.not_mem_nil, or_false] at hy
        rcases hy with rfl | rfl | rfl | rfl | rfl | rfl | rfl <;>
          exact ⟨by decide, by decide⟩
      | error e2 =>
        simp only [fallbackReports, List.cons_append, List.nil_append,
          List.mem_cons, List.not_mem_nil, or_false] at hy
        rcases hy with rfl | rfl | rfl | rfl | rfl | rfl <;>
          exact ⟨by decide, by decide⟩

theorem postTrace_head (psucc : Bool) (l1 l2 : Except String (List Char)) :
    ∀ y ∈ (postTrace psucc l1 l2).head?, y.1 = 100 ∨ y.1 = 45 := by
  unfold postTrace
  intro y hy
  by_cases hp : psucc = true
  · rw [if_pos hp] at hy
    simp only [List.head?_cons, Option.mem_def, Option.some.injEq] at hy
    rw [← hy]; left; decide
  · rw [if_neg hp] at hy
    cases l1 with
    | ok a =>
      simp only [fallbackReports, List.cons_append, List.head?_cons,
        Option.mem_def, Option.some.injEq] at hy
      rw [← hy]; right; decide
    | error e =>
      cases l2 with
      | ok a =>
        simp only [fallbackReports, List.cons_append, List.head?_cons,
          Option.mem_def, Option.some.injEq] at hy
        rw [← hy]; right; decide
      | error e2 =>
        simp only [fallbackReports, List.cons_append, List.head?_cons,
          Option.mem_def, Option.some.injEq] at hy
        rw [← hy]; right; decide

/-- C8 (amended): within one summarization request, every progress report
delivered by `summarizePaper` carries a non-empty stage label, and each
percentage is at least the previous one except that a drop may only land on
the 45% fallback announcement (the outer catch re-enters the single-pass
fallback after a pipeline or LLM failure). -/
theorem summarizeProgress_spec (o : SummaryOracles) :
    List.Chain' (fun a b : Report => a.1 ≤ b.1 ∨ b.1 = 45)
      (summarizePaperTrace o) ∧
    ∀ r ∈ summarizePaperTrace o, r.2 ≠ "" := by
  unfold summarizePaperTrace
  cases hres : o.resolveR with
  | error e =>
    refine ⟨List.chain'_singleton _, ?_⟩
    intro r hr
    simp only [List.mem_singleton] at hr
    rw [hr]; decide
  | ok hasAttach =>
    cases hens : o.ensureR with
    | error e =>
      refine ⟨?_, ?_⟩
      · exact List.chain'_cons.2 ⟨Or.inl (by decide), List.chain'_singleton _⟩
      · intro r hr
        rcases List.mem_cons.1 hr with heq | hr2
        · rw [heq]; decide
        · simp only [List.mem_singleton] at hr2
          rw [hr2]; decide
    | ok u =>
      constructor
      · apply List.chain'_append.2
        refine ⟨?_, postTrace_chain _ _ _, ?_⟩
        · apply List.chain'_append.2
          refine ⟨List.chain'_cons.2 ⟨Or.inl (by decide), List.chain'_singleton _⟩,
            pipelineResult_chain _ _ _, ?_⟩
          intro x hx y hy
          have hx8 : x = report 8 "텍스트 인덱스 준비" := by
            simp only [List.getLast?_cons_cons, List.getLast?_singleton,
              Option.mem_def, Option.some.injEq] at hx
            exact hx.symm
          have hym := List.mem_of_mem_head? hy
          have h8 := (pipelineResult_mem hasAttach o.attachID o.extractR y hym).2.1
          rw [hx8]
          exact Or.inl h8
        · intro x hx y hy
          have hxm := List.mem_of_mem_getLast? hx
          have hx100 : x.1 ≤ 100 := by
            rcases List.mem_append.1 hxm with hx1 | hx2
            · rcases List.mem_cons.1 hx1 with heq | hx3
              · rw [heq]; decide
              · simp only [List.mem_singleton] at hx3
                rw [hx3]; decide
            · exact (pipelineResult_mem hasAttach o.attachID o.extractR x hx2).2.2
          rcases postTrace_head _ o.llm1 o.llm2 y hy with h100 | h45
          · exact Or.inl (by rw [h100]; exact hx100)
          · exact Or.inr h45
      · intro r hr
        rcases List.mem_append.1 hr with h1 | h2
        · rcases List.mem_append.1 h1 with hh | hp1
          · rcases List.mem_cons.1 hh with heq | hh2
            · rw [heq]; decide
            · simp only [List.mem_singleton] at hh2
              rw [hh2]; decide
          · exact (pipelineResult_mem hasAttach o.attachID o.extractR r hp1).1
        · exact (postTrace_mem _ o.llm1 o.llm2 r h2).1

/-- C8 counterexample: with an attachment item whose numeric id is 0 (so the
bookmark pipeline throws before reporting) and an LLM failure inside the
first single-pass fallback, the delivered percentages are
[3, 8, 45, 55, 75, 45, 55, 75, 100]: the outer catch re-reports 45 right
after 75, so the sequence is not monotonically non-decreasing. -/
theorem summarizeProgress_counterexample :
    (summarizePaperTrace c8bad).map Prod.fst =
      [3, 8, 45, 55, 75, 45, 55, 75, 100] ∧
    ¬ List.Chain' (fun a b : Report => a.1 ≤ b.1) (summarizePaperTrace c8bad) := by
  constructor
  · decide
  · intro h
    have h45 := List.chain'_iff_get.1 h 4 (by decide)
    revert h45
    decide

example : chunkText [] = [] := by decide
example : (chunkText "hello".toList).length = 1 := by decide
example : (chunkText "hello".toList).map TextChunk.id = ["chunk-1"] := by decide
example : normalizeText "  a\r\nb  ".toList = ['a', '\n', '\n', 'b'] := by decide
example : cosineSimilarity id [0, 0] [1, 2] = 0 := by norm_num [cosineSimilarity, cosineAccum]
example : cosineSimilarity id [] [1] = 0 := by norm_num [cosineSimilarity, cosineAccum]

end PaperAgent
